import Mathlib

/-!
Verification development for the tsmap-extract repository (Go).

The Go sources are shallowly embedded here.  Paths are unix paths
(separator `/`, `filepath.FromSlash` and `filepath.ToSlash` are the
identity, `filepath.Separator = '/'`).  Strings are modelled by `String`
at the interfaces of the embedded functions, with the actual work done
on `List Char` (the `data` of a `String`), where structural recursion
and induction are available and everything reduces in the kernel.

Layout:
1. character/list utilities mirroring the Go `strings` functions used;
2. a model of the Go standard library `path/filepath` functions the
   repository calls (`Clean`, `Join`, `Abs`, `Rel`, `Dir`) on unix;
3. the repository functions from `src/unnamed/part_000` and
   `src/tsmap/file.go` (path normalizer, anchor resolver, sourcemap
   model and extraction loops);
4. a model of `net/url` (`Parse`, `ResolveReference`, `resolvePath`,
   `Hostname`) and the chunk URL deriver from `src/tsmap/crawl.go`,
   including the `reReturn` regular expression as a hand-compiled
   matcher with Go (leftmost, greedy with backtracking) semantics;
5. a control-flow model of the map locator part of `processScript`;
6. lemmas and the claim theorems.
-/

namespace Tsmap

/-! ## 1. Character and list-of-char utilities -/

/-- Separator character of unix `path/filepath`. -/
def sep : Char := '/'

/-- Whitespace as decided by Go `unicode.IsSpace` (the set used by
`strings.TrimSpace`): ASCII space characters plus the Unicode
White_Space code points. -/
def goIsSpace (c : Char) : Bool :=
  c = '\t' || c = '\n' || c.toNat = 11 || c.toNat = 12 || c = '\r' || c = ' ' ||
  c.toNat = 0x85 || c.toNat = 0xA0 || c.toNat = 0x1680 ||
  (0x2000 ≤ c.toNat && c.toNat ≤ 0x200A) ||
  c.toNat = 0x2028 || c.toNat = 0x2029 || c.toNat = 0x202F ||
  c.toNat = 0x205F || c.toNat = 0x3000

/-- Model of Go `strings.TrimSpace`: drop leading and trailing
whitespace. -/
def trimSpaceL (l : List Char) : List Char :=
  ((l.dropWhile goIsSpace).reverse.dropWhile goIsSpace).reverse

/-- Split a character list at every `/`; mirrors `strings.Split(s, "/")`
(an empty input yields one empty field). -/
def splitSl : List Char → List (List Char)
  | [] => [[]]
  | c :: rest =>
    if c = '/' then [] :: splitSl rest
    else (c :: (splitSl rest).headI) :: (splitSl rest).tail

/-- Join fields with `/`; mirrors `strings.Join(fields, "/")`. -/
def joinSl : List (List Char) → List Char
  | [] => []
  | [s] => s
  | s :: rest => s ++ '/' :: joinSl rest

/-- Model of `strings.TrimLeft(s, cutset)` for a character-set cutset. -/
def trimLeftSet (l : List Char) (cut : List Char) : List Char :=
  l.dropWhile (fun c => cut.contains c)

/-- Model of `strings.TrimRight(s, cutset)` for a character-set cutset. -/
def trimRightSet (l : List Char) (cut : List Char) : List Char :=
  ((l.reverse.dropWhile (fun c => cut.contains c))).reverse

/-- Model of `strings.Trim(s, cutset)`. -/
def trimSet (l : List Char) (cut : List Char) : List Char :=
  trimRightSet (trimLeftSet l cut) cut

/-- Whether `pat` occurs as a contiguous substring of `l`
(`strings.Contains`). -/
def containsSub (l pat : List Char) : Bool :=
  match l with
  | [] => pat.isEmpty
  | _ :: rest => pat.isPrefixOf l || containsSub rest pat

/-! ## 2. Go `path/filepath` on unix -/

/-- Whether a path is rooted (`filepath.IsAbs` on unix). -/
def isAbsL (p : List Char) : Bool :=
  p.head? = some '/'

/-- One step of the element loop of Go `filepath.Clean`: `acc` is the
output stack in reverse order.  Empty and `.` elements are dropped;
`..` pops a poppable element, is dropped at the root of a rooted path
and kept for a relative path that cannot backtrack. -/
def cleanStack (rooted : Bool) : List (List Char) → List (List Char) → List (List Char)
  | acc, [] => acc
  | acc, s :: rest =>
    if s = [] || s = ['.'] then cleanStack rooted acc rest
    else if s = ['.', '.'] then
      match acc with
      | t :: acc2 =>
        if t = ['.', '.'] then cleanStack rooted (['.', '.'] :: t :: acc2) rest
        else cleanStack rooted acc2 rest
      | [] =>
        if rooted then cleanStack rooted [] rest
        else cleanStack rooted [['.', '.']] rest
    else cleanStack rooted (s :: acc) rest

/-- The cleaned element list of a path. -/
def cleanSegsL (rooted : Bool) (segs : List (List Char)) : List (List Char) :=
  (cleanStack rooted [] segs).reverse

/-- Model of Go `filepath.Clean` on unix: apply the lexical
simplification rules, returning `.` for an empty result and keeping a
single leading `/` of a rooted path. -/
def cleanL (p : List Char) : List Char :=
  if p = [] then ['.']
  else if isAbsL p then '/' :: joinSl (cleanSegsL (isAbsL p) (splitSl p))
  else if cleanSegsL (isAbsL p) (splitSl p) = [] then ['.']
  else joinSl (cleanSegsL (isAbsL p) (splitSl p))

/-- Model of Go `filepath.Join(a, b)` on unix: empty elements are
skipped, the rest are joined with `/` and cleaned; all empty yields
the empty string. -/
def joinL (a b : List Char) : List Char :=
  if a = [] then (if b = [] then [] else cleanL b)
  else cleanL (a ++ '/' :: b)

/-- Model of Go `filepath.Abs` with the working directory `cwd` passed
explicitly (Go reads it with `os.Getwd`): an absolute path is cleaned,
a relative one is joined to `cwd`. -/
def absL (cwd p : List Char) : List Char :=
  if isAbsL p then cleanL p else joinL cwd p

/-- The element sequence Go `filepath.Rel` walks over for an input that
has already been cleaned (and with a `.` base replaced by the empty
string): the root path contributes a single empty element, other rooted
paths a leading empty element. -/
def relElems (p : List Char) : List (List Char) :=
  if p = [] then [] else if p = ['/'] then [[]] else splitSl p

/-- Drop the longest common prefix of two lists, returning both
remainders. -/
def dropCommon : List (List Char) → List (List Char) → List (List Char) × List (List Char)
  | a :: as2, b :: bs2 =>
    if a = b then dropCommon as2 bs2 else (a :: as2, b :: bs2)
  | as2, bs2 => (as2, bs2)

/-- The base path as `Rel` walks it: cleaned, with `.` replaced by the
empty string. -/
def relBase (basep : List Char) : List Char :=
  if cleanL basep = ['.'] then [] else cleanL basep

/-- Model of Go `filepath.Rel(base, targ)` on unix: both paths are
cleaned, paths of different rootedness cannot be related, a base whose
first differing element is `..` cannot be related, and otherwise the
result climbs with `..` for every remaining base element and then
descends into the remaining target elements. -/
def relL (basep targp : List Char) : Option (List Char) :=
  if cleanL targp = cleanL basep then some ['.']
  else if isAbsL (relBase basep) ≠ isAbsL (cleanL targp) then none
  else
    match (dropCommon (relElems (relBase basep)) (relElems (cleanL targp))).1 with
    | [] => some (joinSl (dropCommon (relElems (relBase basep)) (relElems (cleanL targp))).2)
    | b0 :: brest2 =>
      if b0 = ['.', '.'] then none
      else
        some (joinSl (List.replicate (b0 :: brest2).length ['.', '.'] ++
          (dropCommon (relElems (relBase basep)) (relElems (cleanL targp))).2))

/-- The prefix of `p` up to and including the last `/` (empty when
there is no `/`); helper for `filepath.Dir`. -/
def upToLastSlash (p : List Char) : List Char :=
  match p with
  | [] => []
  | c :: rest =>
    let tail := upToLastSlash rest
    if tail = [] then (if c = '/' then ['/'] else [])
    else c :: tail

/-- Model of Go `filepath.Dir` on unix: everything up to the final
separator, cleaned (`.` when there is no separator). -/
def dirL (p : List Char) : List Char :=
  let d := upToLastSlash p
  if d = [] then ['.'] else cleanL d

/-! ## 3. Repository functions: path normalizer, anchor resolver,
sourcemap model (`src/unnamed/part_000`, `src/tsmap/file.go`) -/

/-- Character replacement of `replaceWeird`: the characters
`< > : " | ? *` become `_` (a chain of `strings.ReplaceAll` with
single-character patterns is a character map). -/
def weirdChar (c : Char) : Char :=
  if c = '<' || c = '>' || c = ':' || c = '\"' || c = '|' || c = '?' || c = '*'
  then '_' else c

/-- Embedding of `replaceWeird` from `src/unnamed/part_000`. -/
def replaceWeirdL (s : List Char) : List Char :=
  s.map weirdChar

/-- The per-segment transform of `sanitizeSegments`: trim whitespace,
replace an empty, `.` or `..` segment by `unnamed`, then replace
problematic filesystem characters. -/
def sanSeg (s : List Char) : List Char :=
  let t := trimSpaceL s
  let t := if t = [] || t = ['.'] || t = ['.', '.'] then "unnamed".data else t
  replaceWeirdL t

/-- Embedding of `sanitizeSegments` from `src/unnamed/part_000`
(`filepath.FromSlash` and `string(filepath.Separator)` are the identity
and `"/"` on unix). -/
def sanitizeSegmentsL (p : List Char) : List Char :=
  joinSl ((splitSl p).map sanSeg)

/-- Embedding of `countLeadingUps` from `src/unnamed/part_000`. -/
def countLeadingUpsL : List Char → Nat
  | '.' :: '.' :: '/' :: rest => countLeadingUpsL rest + 1
  | _ => 0

/-- Collapse every `//` to `/`; fixed point of the
`strings.ReplaceAll(p, "//", "/")` loop in `normalizeKeepDots`. -/
def squeezeSl : List Char → List Char
  | [] => []
  | [c] => [c]
  | c1 :: c2 :: rest =>
    if c1 = '/' && c2 = '/' then squeezeSl (c2 :: rest)
    else c1 :: squeezeSl (c2 :: rest)

/-- The URI prefixes stripped by `normalizeKeepDots`, in source order. -/
def uriPres : List (List Char) :=
  ["webpack:///".data, "webpack://".data, "file:///".data, "file://".data,
   "vscode://".data]

/-- Strip the first matching prefix of `uriPres` (the Go loop breaks
after the first hit). -/
def stripUriPre (l : List (List Char)) (p : List Char) : List Char :=
  match l with
  | [] => p
  | pre :: rest =>
    if pre.isPrefixOf p then p.drop pre.length else stripUriPre rest p

/-- Embedding of `normalizeKeepDots` from `src/unnamed/part_000`:
trim, strip one URI prefix, turn backslashes into slashes, drop leading
slashes, drop a drive marker, collapse double slashes. -/
def normalizeKeepDotsL (p : List Char) : List Char :=
  let p := trimSpaceL p
  let p := stripUriPre uriPres p
  let p := p.map (fun c => if c = '\\' then '/' else c)
  let p := p.dropWhile (fun c => c = '/')
  let p :=
    match p with
    | _ :: ':' :: rest => rest.dropWhile (fun c => c = '/')
    | _ => p
  squeezeSl p

/-- Embedding of `joinMaybe` from `src/unnamed/part_000`. -/
def joinMaybeL (root p : List Char) : List Char :=
  if trimSpaceL root = [] then p
  else trimRightSet root ['/', '\\'] ++ '/' :: trimLeftSet p ['/', '\\']

/-- Embedding of `buildAnchors` from `src/unnamed/part_000`:
`base = Join(outDir, ".anchor")` and `sub` nests `depth` many `level`
directories below it. -/
def buildAnchorsL (outDir : List Char) (depth : Nat) : List Char × List Char :=
  let base := joinL outDir ".anchor".data
  (base, Nat.rec base (fun _ s => joinL s "level".data) depth)

/-- Embedding of `mustBeUnder` from `src/unnamed/part_000`, with the
working directory for `filepath.Abs` passed explicitly.  `true` means
no error (the target stays under the base). -/
def mustBeUnderL (cwd base target : List Char) : Bool :=
  let absBase := absL cwd base
  let absTarget := absL cwd target
  match relL absBase absTarget with
  | none => false
  | some r =>
    let r := r.map (fun c => if c = '\\' then '/' else c)
    if r = ['.'] || r = [] then true
    else if ['.', '.', '/'].isPrefixOf r then false
    else !(splitSl r).any (fun seg => seg = ['.', '.'])

/-- The last steps of `resolveUnderAnchor` on the relative path from
the base anchor: sanitize it, and replace an empty or `.` result by
`unnamed`. -/
def finalRel (relFromBase : List Char) : List Char :=
  if sanitizeSegmentsL relFromBase = [] || sanitizeSegmentsL relFromBase = ['.']
  then "unnamed".data else sanitizeSegmentsL relFromBase

/-- Embedding of `resolveUnderAnchor` from `src/unnamed/part_000`:
join under the sub anchor, clean, block anything escaping the base
anchor, sanitize the path relative to the base anchor and re-join it
under the output directory.  Returns the relative and the absolute
destination. -/
def resolveUnderAnchorL (cwd outDir baseAnchor subAnchor normKeep : List Char) :
    Option (List Char × List Char) :=
  if !mustBeUnderL cwd baseAnchor (cleanL (joinL subAnchor normKeep)) then none
  else
    match relL baseAnchor (cleanL (joinL subAnchor normKeep)) with
    | none => none
    | some relFromBase =>
      some (finalRel relFromBase, joinL outDir (finalRel relFromBase))

/-- The sourcemap document schema (`src/unnamed/part_000`, type
`sourceMap`). -/
structure sourceMap where
  version : Int
  file : String
  sources : List String
  sourcesContent : List String
  sourceRoot : String
deriving Repr, DecidableEq

/-- The aligned content of entry `i`: `content := ""` unless
`i < len(sm.SourcesContent)` (the load in `RunExtract` and
`processMapBytes`). -/
def contentAt (sm : sourceMap) (i : Nat) : String :=
  sm.sourcesContent.getD i ""

/-- Embedding of `computeMaxLeadingUps` from `src/tsmap/file.go`: the
maximum leading `../` count over the sources, where an entry is skipped
only when its index is in range of `sourcesContent` and that content is
blank. -/
def computeMaxLeadingUpsGo (sm : sourceMap) (i : Nat) : List String → Nat
  | [] => 0
  | s :: rest =>
    let restMax := computeMaxLeadingUpsGo sm (i + 1) rest
    if i < sm.sourcesContent.length &&
        trimSpaceL (contentAt sm i).data = [] then restMax
    else
      max (countLeadingUpsL
        (normalizeKeepDotsL (joinMaybeL sm.sourceRoot.data s.data))) restMax

/-- Top-level `computeMaxLeadingUps` on a document. -/
def computeMaxLeadingUps (sm : sourceMap) : Nat :=
  computeMaxLeadingUpsGo sm 0 sm.sources

/-- Embedding of `computeMaxLeadingUpsFiltered` from
`src/tsmap/crawl.go` (the body is identical to `computeMaxLeadingUps`). -/
def computeMaxLeadingUpsFiltered (sm : sourceMap) : Nat :=
  computeMaxLeadingUpsGo sm 0 sm.sources

/-- Events emitted by the extraction loop of `RunExtract`, one per
entry: a written file with its relative and absolute path, a skip for
blank content, or a skip for a blocked path. -/
inductive ExtractEvent where
  | written (rel abs : String)
  | skippedNoContent (src : String)
  | skippedBlocked (src : String)
deriving Repr, DecidableEq

/-- The per-entry loop of `RunExtract` (`src/tsmap/file.go`, lines
45-81): blank content is skipped, otherwise the path is normalized and
resolved under the anchors; a blocked path is skipped, otherwise the
file is written.  Returns `(written, skipped, events)`.  Filesystem
writes are modelled as always succeeding; the cosmetic `beautify` and
`eol` transforms (out-of-scope collaborators) do not affect paths or
counts and are omitted. -/
def extractLoop (sm : sourceMap) (cwd outDir baseAnchor subAnchor : List Char)
    (i : Nat) : List String → Nat × Nat × List ExtractEvent
  | [] => (0, 0, [])
  | s :: rest =>
    let r2 := extractLoop sm cwd outDir baseAnchor subAnchor (i + 1) rest
    if trimSpaceL (contentAt sm i).data = [] then
      (r2.1, r2.2.1 + 1, .skippedNoContent s :: r2.2.2)
    else
      match resolveUnderAnchorL cwd outDir baseAnchor subAnchor
        (normalizeKeepDotsL (joinMaybeL sm.sourceRoot.data s.data)) with
      | none => (r2.1, r2.2.1 + 1, .skippedBlocked s :: r2.2.2)
      | some ra => (r2.1 + 1, r2.2.1, .written ⟨ra.1⟩ ⟨ra.2⟩ :: r2.2.2)

/-- The body of `RunExtract` after flag parsing and file reading
(`src/tsmap/file.go`): an unparseable document (`parsed = none`) or a
document without sources is fatal (`fail` exits before anything is
written); otherwise the anchors are computed from the document depth
and every entry is processed. -/
def runExtractModel (parsed : Option sourceMap) (outDir cwd : String) :
    Except Unit (Nat × Nat × List ExtractEvent) :=
  match parsed with
  | none => .error ()
  | some sm =>
    if sm.sources = [] then .error ()
    else
      .ok (extractLoop sm cwd.data outDir.data
        (buildAnchorsL outDir.data (computeMaxLeadingUps sm)).1
        (buildAnchorsL outDir.data (computeMaxLeadingUps sm)).2 0 sm.sources)

/-- The per-entry loop of `processMapBytes` (`src/tsmap/crawl.go`,
lines 733-759): identical skipping logic, but only written files are
recorded (no skip counter).  Returns `(written, absolute paths written)`. -/
def processMapLoop (sm : sourceMap) (cwd outRoot baseAnchor subAnchor : List Char)
    (i : Nat) : List String → Nat × List String
  | [] => (0, [])
  | s :: rest =>
    let r2 := processMapLoop sm cwd outRoot baseAnchor subAnchor (i + 1) rest
    if trimSpaceL (contentAt sm i).data = [] then r2
    else
      match resolveUnderAnchorL cwd outRoot baseAnchor subAnchor
        (normalizeKeepDotsL (joinMaybeL sm.sourceRoot.data s.data)) with
      | none => r2
      | some ra => (r2.1 + 1, String.mk ra.2 :: r2.2)

/-- Embedding of `processMapBytes` from `src/tsmap/crawl.go`: an
unparseable document is an error and writes no source file; otherwise
(note: with no check on the number of sources) the entries are
extracted under `Join(outBase, hostPath)`. -/
def processMapBytesModel (parsed : Option sourceMap) (outBase hostPath cwd : String) :
    Except Unit (Nat × List String) :=
  match parsed with
  | none => .error ()
  | some sm =>
    .ok (processMapLoop sm cwd.data (joinL outBase.data hostPath.data)
      (buildAnchorsL (joinL outBase.data hostPath.data)
        (computeMaxLeadingUpsFiltered sm)).1
      (buildAnchorsL (joinL outBase.data hostPath.data)
        (computeMaxLeadingUpsFiltered sm)).2 0 sm.sources)

/-! String-interface wrappers keeping the Go names. -/

/-- `sanitizeSegments` on `String`. -/
def sanitizeSegments (p : String) : String :=
  ⟨sanitizeSegmentsL p.data⟩

/-- `normalizeKeepDots` on `String`. -/
def normalizeKeepDots (p : String) : String :=
  ⟨normalizeKeepDotsL p.data⟩

/-- `countLeadingUps` on `String`. -/
def countLeadingUps (p : String) : Nat :=
  countLeadingUpsL p.data

/-- `buildAnchors` on `String`. -/
def buildAnchors (outDir : String) (depth : Nat) : String × String :=
  let (b, s) := buildAnchorsL outDir.data depth
  (⟨b⟩, ⟨s⟩)

/-- `resolveUnderAnchor` on `String` (the working directory of
`filepath.Abs` passed first). -/
def resolveUnderAnchor (cwd outDir baseAnchor subAnchor normKeep : String) :
    Option (String × String) :=
  (resolveUnderAnchorL cwd.data outDir.data baseAnchor.data subAnchor.data
    normKeep.data).map (fun rp => (⟨rp.1⟩, ⟨rp.2⟩))

/-- `mustBeUnder` on `String`. -/
def mustBeUnder (cwd base target : String) : Bool :=
  mustBeUnderL cwd.data base.data target.data

/-! ## 4. Go `net/url` model and the chunk URL deriver
(`src/tsmap/crawl.go`) -/

/-- The parts of a Go `url.URL` the repository uses.  Userinfo, query,
fragment and percent-escaping are not modelled (no input of the
repository exercises them). -/
structure GoURL where
  scheme : String
  host : String
  path : String
  opq : String
deriving Repr, DecidableEq

/-- ASCII lower-casing (Go `strings.ToLower` on ASCII input). -/
def toLowerAscii (c : Char) : Char :=
  if 'A' ≤ c && c ≤ 'Z' then Char.ofNat (c.toNat + 32) else c

/-- Model of the `getScheme` scanner of `net/url`: a scheme is an
ASCII letter followed by letters, digits, `+`, `-`, `.` and ended by
`:`; a leading `:` is a parse error; anything else means no scheme. -/
def getSchemeGo (orig : List Char) : List Char → Nat → Option (List Char × List Char)
  | [], _ => some ([], orig)
  | c :: rest, i =>
    if c.isAlpha then getSchemeGo orig rest (i + 1)
    else if c.isDigit || c = '+' || c = '-' || c = '.' then
      if i = 0 then some ([], orig) else getSchemeGo orig rest (i + 1)
    else if c = ':' then
      if i = 0 then none else some (orig.take i, orig.drop (i + 1))
    else some ([], orig)

/-- Cut a list at the first occurrence of `c` (Go `strings.Cut`),
returning the part before and the part after (without `c`). -/
def cutAt (l : List Char) (c : Char) : List Char × List Char :=
  let pre := l.takeWhile (· ≠ c)
  (pre, (l.drop pre.length).drop 1)

/-- The part of an authority after the last `@` (the host; userinfo is
dropped like Go `parseAuthority` does). -/
def afterLastAt (l : List Char) : List Char :=
  match l with
  | [] => []
  | _ :: rest => if l.contains '@' then afterLastAt rest else l

/-- Model of Go `url.Parse`: strip fragment and query, read the scheme
(lower-cased), read a `//authority` into the host, keep a rootless rest
of a scheme-ful URL as opaque, and the rest as the path. -/
def parseURLL (raw : List Char) : Option GoURL :=
  let (rest0, _) := cutAt raw '#'
  match getSchemeGo rest0 rest0 0 with
  | none => none
  | some (sch, rest1) =>
    let sch := sch.map toLowerAscii
    let (rest2, _) := cutAt rest1 '?'
    if ['/', '/'].isPrefixOf rest2 then
      let auth0 := rest2.drop 2
      let auth := auth0.takeWhile (· ≠ '/')
      let rest3 := auth0.drop auth.length
      some ⟨⟨sch⟩, ⟨afterLastAt auth⟩, ⟨rest3⟩, ""⟩
    else if sch ≠ [] && rest2.head? ≠ some '/' then
      some ⟨⟨sch⟩, "", "", ⟨rest2⟩⟩
    else
      some ⟨⟨sch⟩, "", ⟨rest2⟩, ""⟩

/-- Index of the last `/` in `l`, if any. -/
def lastSlashIdx (l : List Char) : Option Nat :=
  match l with
  | [] => none
  | c :: rest =>
    match lastSlashIdx rest with
    | some i => some (i + 1)
    | none => if c = '/' then some 0 else none

/-- The element loop of `net/url`'s `resolvePath`: `dst` is the output
buffer (it starts as `/`), `first` tracks whether a first element has
been written. -/
def rpLoop (dst : List Char) (first : Bool) : List (List Char) → List Char
  | [] => dst
  | e :: rest =>
    if e = ['.'] then rpLoop dst false rest
    else if e = ['.', '.'] then
      let str := dst.drop 1
      match lastSlashIdx str with
      | none => rpLoop ['/'] true rest
      | some i => rpLoop ('/' :: str.take i) first rest
    else
      let dst2 := if first then dst ++ e else dst ++ '/' :: e
      rpLoop dst2 false rest

/-- Model of `net/url`'s `resolvePath(base, ref)`: merge `ref` onto the
directory of `base` (RFC 3986 merge), then remove dot segments,
keeping a trailing slash when the last element was a dot, and always
producing a rooted path. -/
def resolvePathGo (base ref : List Char) : List Char :=
  let full :=
    if ref = [] then base
    else if ref.head? ≠ some '/' then upToLastSlash base ++ ref
    else ref
  if full = [] then []
  else
    let elems := splitSl full
    let r := rpLoop ['/'] true elems
    let lastE := elems.getLastD []
    let r := if lastE = ['.'] || lastE = ['.', '.'] then r ++ ['/'] else r
    match r with
    | c1 :: c2 :: rest => if c2 = '/' then c2 :: rest else c1 :: c2 :: rest
    | _ => r

/-- Model of Go `(*url.URL).ResolveReference`: a ref with scheme or
host wins outright (its path normalized); an opaque ref wins; otherwise
the ref path is resolved against the base URL. -/
def resolveReferenceL (base ref : GoURL) : GoURL :=
  let sch := if ref.scheme = "" then base.scheme else ref.scheme
  if ref.scheme ≠ "" || ref.host ≠ "" then
    ⟨sch, ref.host, ⟨resolvePathGo ref.path.data []⟩, ref.opq⟩
  else if ref.opq ≠ "" then
    ⟨sch, "", "", ref.opq⟩
  else
    ⟨sch, base.host, ⟨resolvePathGo base.path.data ref.path.data⟩, ""⟩

/-- Model of Go `(*url.URL).String` restricted to the modelled fields;
used as the de-duplication key. -/
def urlStringL (u : GoURL) : List Char :=
  (if u.scheme ≠ "" then u.scheme.data ++ [':'] else []) ++
  (if u.opq ≠ "" then u.opq.data
   else
     (if (u.scheme ≠ "" || u.host ≠ "") && (u.host ≠ "" || u.path ≠ "") then
        '/' :: '/' :: u.host.data
      else []) ++ u.path.data)

/-- Index of the last `:` in a list, if any. -/
def lastColonIdx (l : List Char) : Option Nat :=
  match l with
  | [] => none
  | c :: rest =>
    match lastColonIdx rest with
    | some i => some (i + 1)
    | none => if c = ':' then some 0 else none

/-- Model of Go `(*url.URL).Hostname()`: strip a valid optional
`:port` suffix (a colon followed by digits only). -/
def hostnameL (h : List Char) : List Char :=
  match lastColonIdx h with
  | some i => if (h.drop (i + 1)).all (·.isDigit) then h.take i else h
  | none => h

/-- The directory part used by `hostPathForURL`: `Dir` of the script
path, emptied when it is `.` or `/`, otherwise trimmed of slashes. -/
def hostDirPart (p : List Char) : List Char :=
  if dirL p = ['.'] || dirL p = ['/'] then [] else trimSet (dirL p) ['/']

/-- Embedding of `hostPathForURL` from `src/tsmap/crawl.go`: the
script's hostname joined with the trimmed directory of its path (the
root URL argument is unused by the source as well). -/
def hostPathForURL (rootURL scriptURL : GoURL) : String :=
  if hostDirPart scriptURL.path.data = [] then ⟨hostnameL scriptURL.host.data⟩
  else ⟨joinL (hostnameL scriptURL.host.data) (hostDirPart scriptURL.path.data)⟩

/-! ### The `reReturn` regular expression as a hand-compiled matcher

`reReturn` is
`return *["']([^"']*)["'] *\+ *(\w) *\+["'][^"']*["']\+({[^{]*})\[(\w)\]\+["']\.chunk\.js["']`.
Every star in it except the one in group 3 is followed by a character
its class cannot match, so those are deterministic; the `[^{]*` of
group 3 is greedy with backtracking (longest body first), matching Go's
leftmost-first semantics. -/

/-- RE2 `\w`. -/
def isWordChar (c : Char) : Bool :=
  c.isAlpha || c.isDigit || c = '_'

/-- The `["']` character class. -/
def isQuote (c : Char) : Bool :=
  c = '\"' || c = '\''

/-- Drop a literal, failing when it is not a prefix. -/
def dropLit (lit s : List Char) : Option (List Char) :=
  if lit.isPrefixOf s then some (s.drop lit.length) else none

/-- Check the tail after group 3's body: `}` `[` word `]` `+` quote
`.chunk.js` quote; returns the captured variable and the remainder. -/
def checkTail (t : List Char) : Option (Char × List Char) :=
  match t with
  | '}' :: '[' :: w :: ']' :: '+' :: q :: t2 =>
    if isWordChar w && isQuote q then
      match dropLit ".chunk.js".data t2 with
      | some (q2 :: rest) => if isQuote q2 then some (w, rest) else none
      | _ => none
    else none
  | _ => none

/-- Greedy body search for group 3: try the longest prefix of the
no-`{` run first (`k` is the candidate body length). -/
def mbGo (run after : List Char) : Nat → Option (List Char × Char × List Char)
  | 0 =>
    match checkTail (run ++ after) with
    | some (w, r) => some ([], w, r)
    | none => none
  | k + 1 =>
    match checkTail (run.drop (k + 1) ++ after) with
    | some (w, r) => some (run.take (k + 1), w, r)
    | none => mbGo run after k

/-- Try to match `reReturn` at the start of `s0`; returns the four
captures (prefix, variable, object literal with braces, second
variable) and the remainder after the match. -/
def matchReturnAt (s0 : List Char) :
    Option (List Char × Char × List Char × Char × List Char) :=
  match dropLit "return".data s0 with
  | none => none
  | some s1 =>
    match s1.dropWhile (· = ' ') with
    | [] => none
    | q1 :: s3 =>
      if !isQuote q1 then none
      else
        let cap1 := s3.takeWhile (fun d => !isQuote d)
        match s3.drop cap1.length with
        | [] => none
        | _ :: s5 =>
          match s5.dropWhile (· = ' ') with
          | '+' :: s7 =>
            match s7.dropWhile (· = ' ') with
            | [] => none
            | v :: s9 =>
              if !isWordChar v then none
              else
                match s9.dropWhile (· = ' ') with
                | '+' :: q3 :: s12 =>
                  if !isQuote q3 then none
                  else
                    let skip := s12.takeWhile (fun d => !isQuote d)
                    match s12.drop skip.length with
                    | [] => none
                    | _ :: s14 =>
                      match s14 with
                      | '+' :: '{' :: s15 =>
                        let run := s15.takeWhile (· ≠ '{')
                        let after := s15.drop run.length
                        (mbGo run after run.length).map
                          (fun bwr =>
                            (cap1, v, '{' :: bwr.1 ++ ['}'], bwr.2.1, bwr.2.2))
                      | _ => none
                | _ => none
          | _ => none

/-- Scan for all non-overlapping leftmost matches of `reReturn`
(`FindAllStringSubmatchIndex` semantics); fuel is the input length. -/
def findAllReturn : Nat → List Char → List (List Char × Char × List Char × Char)
  | 0, _ => []
  | fuel + 1, s =>
    match matchReturnAt s with
    | some (p, v, j, v2, rest) => (p, v, j, v2) :: findAllReturn fuel rest
    | none =>
      match s with
      | [] => []
      | _ :: t => findAllReturn fuel t

/-- RE2 `\s` (no vertical tab). -/
def isWsRE (c : Char) : Bool :=
  c = '\t' || c = '\n' || c.toNat = 12 || c = '\r' || c = ' '

/-- Try the key pattern right after a `{` or `,`: spaces, an optional
minus, digits, spaces, colon; returns the pieces and the rest after the
colon. -/
def tryKeyMatch (rest : List Char) :
    Option (List Char × List Char × List Char × List Char) :=
  let ws1 := rest.takeWhile isWsRE
  let r1 := rest.drop ws1.length
  let (sign, r2) :=
    match r1 with
    | '-' :: t => (['-'], t)
    | _ => (([] : List Char), r1)
  let digits := r2.takeWhile (·.isDigit)
  if digits = [] then none
  else
    let r3 := r2.drop digits.length
    let ws2 := r3.takeWhile isWsRE
    match r3.drop ws2.length with
    | ':' :: r4 => some (ws1, sign ++ digits, ws2, r4)
    | _ => none

/-- Embedding of `quoteNumericObjectKeys` from `src/tsmap/crawl.go`:
replace every leftmost non-overlapping match of
`([{,]\s*)(-?\d+)(\s*:)` by the same text with quotes around the
number. -/
def quoteKeysGo : Nat → List Char → List Char
  | 0, s => s
  | fuel + 1, s =>
    match s with
    | [] => []
    | c :: rest =>
      if c = '{' || c = ',' then
        match tryKeyMatch rest with
        | some (ws1, num, ws2, rest2) =>
          c :: ws1 ++ '\"' :: num ++ '\"' :: ws2 ++ ':' :: quoteKeysGo fuel rest2
        | none => c :: quoteKeysGo fuel rest
      else c :: quoteKeysGo fuel rest

/-- `quoteNumericObjectKeys` on a character list. -/
def quoteNumericObjectKeysL (s : List Char) : List Char :=
  quoteKeysGo s.length s

/-- JSON whitespace. -/
def jsonWs (c : Char) : Bool :=
  c = ' ' || c = '\t' || c = '\n' || c = '\r'

/-- Parse a JSON string literal without escapes (no input of the
deriver contains escapes; a backslash makes the model fail where Go
would decode it). -/
def parseJsonStr (s : List Char) : Option (List Char × List Char) :=
  match s with
  | '\"' :: rest =>
    let content := rest.takeWhile (fun c => c ≠ '\"' && c ≠ '\\')
    match rest.drop content.length with
    | '\"' :: r2 => some (content, r2)
    | _ => none
  | _ => none

/-- Parse a decimal integer the way `encoding/json` parses a
`map[int]string` key (optional sign, digits, nothing else). -/
def parseIntKey (l : List Char) : Option Int :=
  let (neg, ds) :=
    match l with
    | '-' :: t => (true, t)
    | _ => (false, l)
  if ds = [] || !ds.all (·.isDigit) then none
  else
    let n := ds.foldl (fun acc c => acc * 10 + (c.toNat - 48)) (0 : Nat)
    some (if neg then -(n : Int) else (n : Int))

/-- Insert-or-replace in an association list (later JSON keys win, as
in `encoding/json`). -/
def assocUpd (l : List (Int × String)) (k : Int) (v : String) : List (Int × String) :=
  match l with
  | [] => [(k, v)]
  | (k2, v2) :: rest =>
    if k2 = k then (k, v) :: rest else (k2, v2) :: assocUpd rest k v

/-- Entry loop of the JSON object decoder. -/
def parseObjEntries : Nat → List Char → List (Int × String) → Option (List (Int × String))
  | 0, _, _ => none
  | fuel + 1, s, acc =>
    match parseJsonStr (s.dropWhile jsonWs) with
    | none => none
    | some (key, s1) =>
      match s1.dropWhile jsonWs with
      | ':' :: s2 =>
        match parseJsonStr (s2.dropWhile jsonWs) with
        | none => none
        | some (v, s3) =>
          match parseIntKey key with
          | none => none
          | some k =>
            let acc2 := assocUpd acc k ⟨v⟩
            match s3.dropWhile jsonWs with
            | ',' :: s4 => parseObjEntries fuel s4 acc2
            | '}' :: s5 => if s5.dropWhile jsonWs = [] then some acc2 else none
            | _ => none
      | _ => none

/-- Embedding of `parseWeirdJSON` from `src/tsmap/crawl.go`: quote the
bare integer keys, then decode as a mapping from integer id to hash
string.  (Go iterates the resulting map in unspecified order; the model
keeps textual order and no theorem depends on it.) -/
def parseWeirdJSONL (input : List Char) : Option (List (Int × String)) :=
  let norm := quoteNumericObjectKeysL input
  match norm.dropWhile jsonWs with
  | '{' :: s =>
    match s.dropWhile jsonWs with
    | '}' :: s3 => if s3.dropWhile jsonWs = [] then some [] else none
    | _ => parseObjEntries (s.length + 1) s []
  | _ => none

/-- Decimal digits of a positive number (fuel-bounded division loop). -/
def natStrAux : Nat → Nat → List Char
  | 0, _ => []
  | fuel + 1, n =>
    if n = 0 then [] else natStrAux fuel (n / 10) ++ [Char.ofNat (48 + n % 10)]

/-- Decimal rendering of an integer (`fmt.Sprintf("%d", k)`). -/
def intStr (k : Int) : List Char :=
  let digits := if k.natAbs = 0 then ['0'] else natStrAux k.natAbs k.natAbs
  if k < 0 then '-' :: digits else digits

/-- The URL-building step of `findChunkURLsReturnPattern` for one
synthesized name (`src/tsmap/crawl.go`, lines 820-850): parse the name,
resolve it against the page root URL; when the resolution lacks a
scheme or a host, build the URL from the directory of the current
script instead. -/
def resolveChunkName (name : List Char) (scriptURL rootURL : GoURL) : Option GoURL :=
  match parseURLL name with
  | none => none
  | some u =>
    let resolved := resolveReferenceL rootURL u
    if resolved.scheme = "" || resolved.host = "" then
      let baseDir := dirL scriptURL.path.data
      let baseDir := if baseDir = ['.'] then [] else baseDir
      let joined := joinL baseDir name
      let joined := if joined.head? = some '/' then joined else '/' :: joined
      some ⟨scriptURL.scheme, scriptURL.host, ⟨joined⟩, ""⟩
    else some resolved

/-- The script-directory fallback branch of `resolveChunkName`
(`src/tsmap/crawl.go`, lines 832-846), taken when the root-resolved URL
lacks a scheme or a host: the candidate is built from the directory of
the current script under the script's scheme and host. -/
def scriptDirFallback (name : List Char) (scriptURL : GoURL) : GoURL :=
  let baseDir := dirL scriptURL.path.data
  let baseDir := if baseDir = ['.'] then [] else baseDir
  let joined := joinL baseDir name
  let joined := if joined.head? = some '/' then joined else '/' :: joined
  ⟨scriptURL.scheme, scriptURL.host, ⟨joined⟩, ""⟩

/-- Candidates contributed by one `reReturn` match: nothing when the
two variable names differ or the object literal does not decode,
otherwise one URL per (id, hash) pair. -/
def candidatesOfMatch (scriptURL rootURL : GoURL)
    (m : List Char × Char × List Char × Char) : List GoURL :=
  if m.2.1 ≠ m.2.2.2 then []
  else
    match parseWeirdJSONL m.2.2.1 with
    | none => []
    | some kv =>
      kv.filterMap (fun kh =>
        resolveChunkName (m.1 ++ intStr kh.1 ++ '.' :: kh.2.data ++ ".chunk.js".data)
          scriptURL rootURL)

/-- De-duplication by final URL string, keeping first occurrences. -/
def dedupeGo (seen : List (List Char)) : List GoURL → List GoURL
  | [] => []
  | u :: rest =>
    let key := urlStringL u
    if seen.contains key then dedupeGo seen rest
    else u :: dedupeGo (key :: seen) rest

/-- Embedding of `findChunkURLsReturnPattern` from
`src/tsmap/crawl.go`: cheap `.chunk.js` pre-filter, all `reReturn`
matches, candidate URLs per match, de-duplicated when there is more
than one. -/
def findChunkURLsReturnPattern (jsText : String) (scriptURL rootURL : GoURL) :
    List GoURL :=
  if !containsSub jsText.data ".chunk.js".data then []
  else
    let ms := findAllReturn (jsText.data.length + 1) jsText.data
    let out := (ms.map (candidatesOfMatch scriptURL rootURL)).flatten
    if out.length > 1 then dedupeGo [] out else out

/-! ## 5. Control-flow model of the map locator part of
`processScript` (`src/tsmap/crawl.go`, lines 622-678)

The text matching, decode, fetch and map-processing leaves are passed
in as oracles; the model records which map-locating network fetches
the control flow performs. -/

/-- A network fetch performed while locating a script's map: the fetch
of a referenced `sourceMappingURL`, or the conventional
`<scriptPath>.map` guess. -/
inductive MapFetch where
  | referenced (url : String)
  | conventional (url : String)
deriving Repr, DecidableEq

/-- Oracles for the leaves of the map locator: the result of
`reSourceMapInline` on the script text, base64 decoding, the result of
`reSourceMapComment`, reference resolution against the script URL, the
network, and `processMapBytes`. -/
structure LocatorEnv where
  inlineMatch : Option String
  b64Decode : String → Option String
  commentMatch : Option String
  resolveRef : String → Option String
  fetch : String → Option String
  processMap : String → Option Nat

/-- Strategy 3 of `processScript`: one conventional fetch of
`<scriptPath>.map` (the function returns afterwards whether or not the
fetch and the processing succeed). -/
def conventionalStep (convURL : String) : List MapFetch :=
  [MapFetch.conventional convURL]

/-- Strategy 2 of `processScript`: when the comment regex matched and
the reference parses, fetch it; a failed fetch falls through to the
conventional strategy, a successful fetch returns (whatever map
processing yields). -/
def referencedStep (env : LocatorEnv) (convURL : String) : List MapFetch :=
  match env.commentMatch with
  | none => conventionalStep convURL
  | some ref =>
    match env.resolveRef ref with
    | none => conventionalStep convURL
    | some mapURL =>
      match env.fetch mapURL with
      | none => MapFetch.referenced mapURL :: conventionalStep convURL
      | some _ => [MapFetch.referenced mapURL]

/-- The map-locating fetches of `processScript`: when the inline regex
matched and its payload base64-decodes, the inline map is processed and
the function returns without any map fetch; a failed decode falls
through to the referenced strategy. -/
def processScriptMapFetches (env : LocatorEnv) (convURL : String) : List MapFetch :=
  match env.inlineMatch with
  | none => referencedStep env convURL
  | some payload =>
    match env.b64Decode payload with
    | none => referencedStep env convURL
    | some _ => []

/-! ## 5b. Derived notions used by lemma and claim statements -/

/-- The trimmed-and-replaced segment of `sanSeg`, before the character
replacement. -/
def sanCore (s : List Char) : List Char :=
  if trimSpaceL s = [] || trimSpaceL s = ['.'] || trimSpaceL s = ['.', '.']
  then "unnamed".data else trimSpaceL s

/-- A real path segment: not empty, not a dot, not an updot, and free
of the separator. -/
def GoodSeg (s : List Char) : Prop :=
  s ≠ [] ∧ s ≠ ['.'] ∧ s ≠ ['.', '.'] ∧ '/' ∉ s

instance (s : List Char) : Decidable (GoodSeg s) := by
  unfold GoodSeg; infer_instance

/-- A weak segment: what is known of every element the cleaning stack
can hold (an updot, or a pushed good segment). -/
def WeakSeg (s : List Char) : Prop :=
  s ≠ [] ∧ s ≠ ['.'] ∧ '/' ∉ s

/-- Shape invariant of the cleaning stack: good segments on top of a
run of updots, the latter empty when the path is rooted. -/
def StackOK (r : Bool) (acc : List (List Char)) : Prop :=
  ∃ g k, acc = g ++ List.replicate k ['.', '.'] ∧ (∀ s ∈ g, GoodSeg s) ∧
    (r = true → k = 0)

/-- Extend a cleaned base path by real segments (what `Join` does when
the appended part has no empty, dot or updot segment). -/
def appendUnder (base : List Char) (segs : List (List Char)) : List Char :=
  if base = ['.'] then joinSl segs
  else if base = ['/'] then '/' :: joinSl segs
  else base ++ '/' :: joinSl segs

/-- Being a strict descendant of a directory: the path is the cleaned
directory extended by at least one real segment. -/
def isUnder (out p : String) : Prop :=
  ∃ segs, segs ≠ [] ∧ (∀ s ∈ segs, GoodSeg s) ∧
    p.data = appendUnder (cleanL out.data) segs

/-- Shape of every `Clean` output: the dot, a rooted join of good
segments, or a relative join of updots followed by good segments. -/
def CleanShape (b : List Char) : Prop :=
  b = ['.'] ∨
  (∃ g, (∀ s ∈ g, GoodSeg s) ∧ b = '/' :: joinSl g) ∨
  (∃ k g, (k ≠ 0 ∨ g ≠ []) ∧ (∀ s ∈ g, GoodSeg s) ∧
    b = joinSl (List.replicate k ['.', '.'] ++ g))

/-- A concrete locator environment whose script text carries a valid
inline base64 map. -/
def envInlineExample : LocatorEnv where
  inlineMatch := some "eyJ2ZXJzaW9uIjozfQ"
  b64Decode := fun s => if s = "eyJ2ZXJzaW9uIjozfQ" then some "{}" else none
  commentMatch := some "app.js.map"
  resolveRef := fun r => some r
  fetch := fun _ => none
  processMap := fun _ => some 0

/-- The document with entry `i` of `sourcesContent` replaced by the
empty string (a no-op when `i` is out of range). -/
def setContent (sm : sourceMap) (i : Nat) : sourceMap :=
  { sm with sourcesContent := sm.sourcesContent.set i "" }

/-- The sourcemap document of the end-to-end scenario: three sources
two levels up, the third with empty content. -/
def doc3 : sourceMap :=
  ⟨3, "bundle.js",
   ["../../src/app.ts", "../../src/utils/math.ts", "../node_modules/x/y.js"],
   ["console.log(1);", "export const x = 1;", ""], ""⟩

/-- The chunk-deriver script text of the determinism scenario: one
return-pattern with object literal ids 20 and 21 and matching variable
name on both occurrences. -/
def chunk6Text : String :=
  "x;return \"static/js/\"+e+\".\"+\x7b20:\"abcd\",21:\"efgh\"\x7d[e]+\".chunk.js\";y"

/-- The same text with a different variable name on the object-lookup
occurrence. -/
def chunk6Mismatch : String :=
  "x;return \"static/js/\"+e+\".\"+\x7b20:\"abcd\",21:\"efgh\"\x7d[t]+\".chunk.js\";y"

/-- The script URL of the chunk-derivation scenario. -/
def script6 : GoURL := ⟨"https", "app.example.com", "/static/js/main.js", ""⟩

/-- The page root URL of the chunk-derivation scenario. -/
def root6 : GoURL := ⟨"https", "app.example.com", "/index.html", ""⟩

/-! ## 6. Lemmas -/

theorem splitSl_ne_nil (l : List Char) : splitSl l ≠ [] := by
  cases l with
  | nil => simp [splitSl]
  | cons c rest => simp only [splitSl]; split <;> simp

theorem mem_splitSl_no_slash (l : List Char) : ∀ s ∈ splitSl l, '/' ∉ s := by
  induction l with
  | nil =>
    intro s hs
    rw [splitSl, List.mem_singleton] at hs
    simp [hs]
  | cons c rest ih =>
    intro s hs
    rw [splitSl] at hs
    by_cases hc : c = '/'
    · rw [if_pos hc] at hs
      rcases List.mem_cons.mp hs with h1 | h1
      · subst h1; simp
      · exact ih s h1
    · rw [if_neg hc] at hs
      cases h : splitSl rest with
      | nil => exact absurd h (splitSl_ne_nil rest)
      | cons s0 ss =>
        rw [h] at hs
        rcases List.mem_cons.mp hs with h1 | h1
        · subst h1
          intro hmem
          rcases List.mem_cons.mp hmem with h2 | h2
          · exact hc h2.symm
          · exact ih s0 (h ▸ List.mem_cons_self s0 ss) h2
        · exact ih s (h ▸ List.mem_cons_of_mem s0 h1)

theorem splitSl_append (a b : List Char) :
    splitSl (a ++ '/' :: b) = splitSl a ++ splitSl b := by
  induction a with
  | nil => simp [splitSl]
  | cons c a2 ih =>
    show splitSl (c :: (a2 ++ '/' :: b)) = splitSl (c :: a2) ++ splitSl b
    by_cases hc : c = '/'
    · simp [splitSl, hc, ih]
    · rw [splitSl, splitSl, if_neg hc, if_neg hc, ih]
      cases h : splitSl a2 with
      | nil => exact absurd h (splitSl_ne_nil a2)
      | cons s ss => simp

theorem splitSl_no_slash_single (s : List Char) (h : '/' ∉ s) : splitSl s = [s] := by
  induction s with
  | nil => simp [splitSl]
  | cons c rest ih =>
    have hc : c ≠ '/' := fun hcc => h (hcc ▸ List.mem_cons_self c rest)
    have hr : '/' ∉ rest := fun hm => h (List.mem_cons_of_mem c hm)
    rw [splitSl, if_neg hc, ih hr]
    rfl

theorem joinSl_splitSl (l : List Char) : joinSl (splitSl l) = l := by
  induction l with
  | nil => simp [splitSl, joinSl]
  | cons c rest ih =>
    rw [splitSl]
    by_cases hc : c = '/'
    · subst hc
      rw [if_pos rfl]
      cases h : splitSl rest with
      | nil => exact absurd h (splitSl_ne_nil rest)
      | cons s ss =>
        rw [h] at ih
        show [] ++ '/' :: joinSl (s :: ss) = '/' :: rest
        rw [ih]
        rfl
    · rw [if_neg hc]
      cases h : splitSl rest with
      | nil => exact absurd h (splitSl_ne_nil rest)
      | cons s ss =>
        rw [h] at ih
        cases ss with
        | nil =>
          show c :: s = c :: rest
          rw [show joinSl [s] = s from rfl] at ih
          rw [ih]
        | cons t ts =>
          show (c :: s) ++ '/' :: joinSl (t :: ts) = c :: rest
          rw [show joinSl (s :: t :: ts) = s ++ '/' :: joinSl (t :: ts) from rfl] at ih
          rw [List.cons_append, ih]

theorem joinSl_append (x y : List (List Char)) (hx : x ≠ []) (hy : y ≠ []) :
    joinSl (x ++ y) = joinSl x ++ '/' :: joinSl y := by
  induction x with
  | nil => exact absurd rfl hx
  | cons s x2 ih =>
    cases x2 with
    | nil =>
      cases y with
      | nil => exact absurd rfl hy
      | cons t ts => rfl
    | cons u us =>
      have h2 : joinSl ((u :: us) ++ y) = joinSl (u :: us) ++ '/' :: joinSl y :=
        ih (by simp)
      show joinSl (s :: ((u :: us) ++ y)) = joinSl (s :: u :: us) ++ '/' :: joinSl y
      have e1 : joinSl (s :: ((u :: us) ++ y)) = s ++ '/' :: joinSl ((u :: us) ++ y) := rfl
      rw [e1, h2]
      show s ++ '/' :: (joinSl (u :: us) ++ '/' :: joinSl y) =
        (s ++ '/' :: joinSl (u :: us)) ++ '/' :: joinSl y
      simp

theorem splitSl_joinSl (L : List (List Char)) (hL : L ≠ [])
    (h : ∀ s ∈ L, '/' ∉ s) : splitSl (joinSl L) = L := by
  induction L with
  | nil => exact absurd rfl hL
  | cons s L2 ih =>
    cases L2 with
    | nil => simpa [joinSl] using splitSl_no_slash_single s (h s (by simp))
    | cons t ts =>
      have hjoin : joinSl (s :: t :: ts) = s ++ '/' :: joinSl (t :: ts) := rfl
      rw [hjoin, splitSl_append, splitSl_no_slash_single s (h s (by simp)),
        ih (by simp) (fun u hu => h u (List.mem_cons_of_mem s hu))]
      simp

theorem trimSpaceL_eq_rdrop (l : List Char) :
    trimSpaceL l = (l.dropWhile goIsSpace).rdropWhile goIsSpace := rfl

theorem trimSpaceL_idem (l : List Char) : trimSpaceL (trimSpaceL l) = trimSpaceL l := by
  rw [trimSpaceL_eq_rdrop, trimSpaceL_eq_rdrop]
  set B := l.dropWhile goIsSpace with hBdef
  set t := B.rdropWhile goIsSpace with htdef
  have hpre : t <+: B := List.rdropWhile_prefix _ _
  have hdrop : t.dropWhile goIsSpace = t := by
    cases ht : t with
    | nil => rfl
    | cons c t2 =>
      have hBc : B.head? = some c := by
        obtain ⟨r, hr⟩ := hpre
        rw [← hr, ht]
        rfl
      have hsp : goIsSpace c = false := by
        have h := List.head?_dropWhile_not goIsSpace l
        rw [← hBdef, hBc] at h
        exact h
      simp [List.dropWhile_cons, hsp]
  rw [hdrop]
  exact List.rdropWhile_idempotent _ _

theorem mem_trimSpaceL (l : List Char) {c : Char} (h : c ∈ trimSpaceL l) : c ∈ l := by
  rw [trimSpaceL_eq_rdrop] at h
  exact (List.dropWhile_suffix goIsSpace).sublist.mem
    ((List.rdropWhile_prefix _ _).sublist.mem h)

theorem goIsSpace_weird (c : Char) : goIsSpace (weirdChar c) = goIsSpace c := by
  unfold weirdChar
  split
  · next h =>
    simp only [Bool.or_eq_true, decide_eq_true_eq] at h
    rcases h with ((((((h | h) | h) | h) | h) | h) | h) <;> subst h <;> decide
  · rfl

theorem weirdChar_idem (c : Char) : weirdChar (weirdChar c) = weirdChar c := by
  unfold weirdChar
  split
  · decide
  · rfl

theorem weirdChar_eq_dot {c : Char} (h : weirdChar c = '.') : c = '.' := by
  unfold weirdChar at h
  split at h
  · exact absurd h (by decide)
  · exact h

theorem weirdChar_eq_slash {c : Char} (h : weirdChar c = '/') : c = '/' := by
  unfold weirdChar at h
  split at h
  · exact absurd h (by decide)
  · exact h

theorem trim_replaceWeird (t : List Char) :
    trimSpaceL (replaceWeirdL t) = replaceWeirdL (trimSpaceL t) := by
  have hcomp : (fun c => goIsSpace (weirdChar c)) = goIsSpace := by
    funext c; exact goIsSpace_weird c
  unfold trimSpaceL replaceWeirdL
  rw [List.dropWhile_map, ← List.map_reverse, List.dropWhile_map, ← List.map_reverse]
  simp only [Function.comp_def, hcomp]

theorem replaceWeird_eq_nil {t : List Char} (h : replaceWeirdL t = []) : t = [] := by
  unfold replaceWeirdL at h
  exact List.map_eq_nil_iff.mp h

theorem replaceWeird_eq_dot {t : List Char} (h : replaceWeirdL t = ['.']) : t = ['.'] := by
  unfold replaceWeirdL at h
  cases t with
  | nil => simp at h
  | cons a t2 =>
    cases t2 with
    | nil =>
      simp only [List.map_cons, List.map_nil, List.cons.injEq, and_true] at h
      rw [weirdChar_eq_dot h]
    | cons b t3 => simp at h

theorem replaceWeird_eq_dotdot {t : List Char} (h : replaceWeirdL t = ['.', '.']) :
    t = ['.', '.'] := by
  unfold replaceWeirdL at h
  cases t with
  | nil => simp at h
  | cons a t2 =>
    cases t2 with
    | nil => simp at h
    | cons b t3 =>
      cases t3 with
      | nil =>
        simp only [List.map_cons, List.map_nil, List.cons.injEq, and_true] at h
        rw [weirdChar_eq_dot h.1, weirdChar_eq_dot h.2]
      | cons d t4 => simp at h

theorem sanSeg_eq (s : List Char) : sanSeg s = replaceWeirdL (sanCore s) := rfl

theorem sanCore_ne_nil (s : List Char) : sanCore s ≠ [] := by
  unfold sanCore
  split
  · decide
  · next h =>
    simp only [Bool.or_eq_true, decide_eq_true_eq, not_or] at h
    exact h.1.1

theorem sanCore_ne_dot (s : List Char) : sanCore s ≠ ['.'] := by
  unfold sanCore
  split
  · decide
  · next h =>
    simp only [Bool.or_eq_true, decide_eq_true_eq, not_or] at h
    exact h.1.2

theorem sanCore_ne_dotdot (s : List Char) : sanCore s ≠ ['.', '.'] := by
  unfold sanCore
  split
  · decide
  · next h =>
    simp only [Bool.or_eq_true, decide_eq_true_eq, not_or] at h
    exact h.2

theorem sanCore_trimmed (s : List Char) : trimSpaceL (sanCore s) = sanCore s := by
  unfold sanCore
  split
  · decide
  · exact trimSpaceL_idem s

theorem sanSeg_ne_nil (s : List Char) : sanSeg s ≠ [] := by
  rw [sanSeg_eq]
  intro h
  exact sanCore_ne_nil s (replaceWeird_eq_nil h)

theorem sanSeg_ne_dot (s : List Char) : sanSeg s ≠ ['.'] := by
  rw [sanSeg_eq]
  intro h
  exact sanCore_ne_dot s (replaceWeird_eq_dot h)

theorem sanSeg_ne_dotdot (s : List Char) : sanSeg s ≠ ['.', '.'] := by
  rw [sanSeg_eq]
  intro h
  exact sanCore_ne_dotdot s (replaceWeird_eq_dotdot h)

theorem sanSeg_no_slash (s : List Char) (h : '/' ∉ s) : '/' ∉ sanSeg s := by
  rw [sanSeg_eq]
  intro hmem
  obtain ⟨c, hc, hcs⟩ := List.mem_map.mp hmem
  have : c = '/' := weirdChar_eq_slash hcs
  subst this
  unfold sanCore at hc
  split at hc
  · exact absurd hc (by decide)
  · exact h (mem_trimSpaceL s hc)

theorem sanSeg_idem (s : List Char) : sanSeg (sanSeg s) = sanSeg s := by
  have h1 : sanSeg s = replaceWeirdL (sanCore s) := rfl
  set X := replaceWeirdL (sanCore s) with hX
  have htrim : trimSpaceL X = X := by
    rw [hX, trim_replaceWeird, sanCore_trimmed]
  have hXnil : X ≠ [] := fun h => sanCore_ne_nil s (replaceWeird_eq_nil (hX ▸ h))
  have hXdot : X ≠ ['.'] := fun h => sanCore_ne_dot s (replaceWeird_eq_dot (hX ▸ h))
  have hXdd : X ≠ ['.', '.'] :=
    fun h => sanCore_ne_dotdot s (replaceWeird_eq_dotdot (hX ▸ h))
  rw [h1]
  show replaceWeirdL (sanCore X) = X
  have hcore : sanCore X = X := by
    unfold sanCore
    rw [htrim, if_neg (by simp [hXnil, hXdot, hXdd])]
  rw [hcore, hX]
  unfold replaceWeirdL
  rw [List.map_map]
  congr 1
  funext c
  exact weirdChar_idem c

theorem sanitize_split (p : List Char) :
    splitSl (sanitizeSegmentsL p) = (splitSl p).map sanSeg := by
  unfold sanitizeSegmentsL
  refine splitSl_joinSl _ ?_ ?_
  · intro h
    exact splitSl_ne_nil p (List.map_eq_nil_iff.mp h)
  · intro s hs
    obtain ⟨u, hu, hus⟩ := List.mem_map.mp hs
    subst hus
    exact sanSeg_no_slash u (mem_splitSl_no_slash p u hu)

theorem sanSeg_good (s : List Char) (h : '/' ∉ s) : GoodSeg (sanSeg s) :=
  ⟨sanSeg_ne_nil s, sanSeg_ne_dot s, sanSeg_ne_dotdot s, sanSeg_no_slash s h⟩

theorem cleanStack_cons (r : Bool) (acc : List (List Char)) (s : List Char)
    (rest : List (List Char)) :
    cleanStack r acc (s :: rest) =
      if s = [] || s = ['.'] then cleanStack r acc rest
      else if s = ['.', '.'] then
        match acc with
        | t :: acc2 =>
          if t = ['.', '.'] then cleanStack r (['.', '.'] :: t :: acc2) rest
          else cleanStack r acc2 rest
        | [] => if r then cleanStack r [] rest else cleanStack r [['.', '.']] rest
      else cleanStack r (s :: acc) rest := rfl

theorem cleanStack_skip (r : Bool) (acc rest : List (List Char)) {s : List Char}
    (h : s = [] ∨ s = ['.']) :
    cleanStack r acc (s :: rest) = cleanStack r acc rest := by
  rcases h with h | h <;> subst h <;> rfl

theorem cleanStack_pushStep (r : Bool) (acc rest : List (List Char)) {s : List Char}
    (h1 : s ≠ []) (h2 : s ≠ ['.']) (h3 : s ≠ ['.', '.']) :
    cleanStack r acc (s :: rest) = cleanStack r (s :: acc) rest := by
  rw [cleanStack_cons, if_neg (by simp [h1, h2]), if_neg (by simp [h3])]

theorem cleanStack_dd_pop (r : Bool) (acc2 rest : List (List Char)) {t : List Char}
    (h : t ≠ ['.', '.']) :
    cleanStack r (t :: acc2) (['.', '.'] :: rest) = cleanStack r acc2 rest := by
  rw [cleanStack_cons, if_neg (by decide), if_pos (by decide)]
  exact if_neg h

theorem cleanStack_dd_push (r : Bool) (acc2 rest : List (List Char)) :
    cleanStack r (['.', '.'] :: acc2) (['.', '.'] :: rest) =
      cleanStack r (['.', '.'] :: ['.', '.'] :: acc2) rest := by
  rw [cleanStack_cons, if_neg (by decide), if_pos (by decide)]
  exact if_pos rfl

theorem cleanStack_dd_nil (r : Bool) (rest : List (List Char)) :
    cleanStack r [] (['.', '.'] :: rest) =
      if r then cleanStack r [] rest else cleanStack r [['.', '.']] rest := by
  rw [cleanStack_cons, if_neg (by decide), if_pos (by decide)]

theorem cleanStack_app (r : Bool) (xs ys : List (List Char)) :
    ∀ acc, cleanStack r acc (xs ++ ys) = cleanStack r (cleanStack r acc xs) ys := by
  induction xs with
  | nil => intro acc; rfl
  | cons s xs2 ih =>
    intro acc
    show cleanStack r acc (s :: (xs2 ++ ys)) = cleanStack r (cleanStack r acc (s :: xs2)) ys
    by_cases h1 : s = [] ∨ s = ['.']
    · rw [cleanStack_skip r acc (xs2 ++ ys) h1, cleanStack_skip r acc xs2 h1, ih]
    · obtain ⟨h1a, h1b⟩ := not_or.mp h1
      by_cases h2 : s = ['.', '.']
      · subst h2
        cases acc with
        | nil =>
          cases r with
          | true => rw [cleanStack_dd_nil, cleanStack_dd_nil, if_pos rfl, if_pos rfl, ih]
          | false =>
            rw [cleanStack_dd_nil, cleanStack_dd_nil, if_neg (by simp),
              if_neg (by simp), ih]
        | cons t acc2 =>
          by_cases h3 : t = ['.', '.']
          · subst h3
            rw [cleanStack_dd_push, cleanStack_dd_push, ih]
          · rw [cleanStack_dd_pop r acc2 (xs2 ++ ys) h3, cleanStack_dd_pop r acc2 xs2 h3, ih]
      · rw [cleanStack_pushStep r acc (xs2 ++ ys) h1a h1b h2,
          cleanStack_pushStep r acc xs2 h1a h1b h2, ih]

theorem cleanStack_push (r : Bool) (segs : List (List Char))
    (hg : ∀ s ∈ segs, GoodSeg s) :
    ∀ acc, cleanStack r acc segs = segs.reverse ++ acc := by
  induction segs with
  | nil => intro acc; simp [cleanStack]
  | cons s segs2 ih =>
    intro acc
    obtain ⟨h1, h2, h3, _⟩ := hg s (List.mem_cons_self s segs2)
    rw [cleanStack_pushStep r acc segs2 h1 h2 h3,
      ih (fun u hu => hg u (List.mem_cons_of_mem s hu)) (s :: acc)]
    simp

theorem GoodSeg.weak {s : List Char} (h : GoodSeg s) : WeakSeg s :=
  ⟨h.1, h.2.1, h.2.2.2⟩

theorem weak_dotdot : WeakSeg ['.', '.'] := by
  refine ⟨by simp, by simp, by decide⟩

theorem stackOK_nil (r : Bool) : StackOK r [] :=
  ⟨[], 0, by simp, by simp, fun _ => rfl⟩

theorem cleanStack_ok (r : Bool) :
    ∀ (xs : List (List Char)), (∀ s ∈ xs, '/' ∉ s) →
      ∀ acc, StackOK r acc → StackOK r (cleanStack r acc xs) := by
  intro xs
  induction xs with
  | nil => intro _ acc hacc; exact hacc
  | cons s xs2 ih =>
    intro hxs acc hacc
    have hs_slash : '/' ∉ s := hxs s (List.mem_cons_self s xs2)
    have hxs2 : ∀ u ∈ xs2, '/' ∉ u := fun u hu => hxs u (List.mem_cons_of_mem s hu)
    obtain ⟨g, k, hgk, hg, hrk⟩ := hacc
    by_cases h1 : s = [] ∨ s = ['.']
    · rw [cleanStack_skip r acc xs2 h1]
      exact ih hxs2 acc ⟨g, k, hgk, hg, hrk⟩
    · obtain ⟨h1a, h1b⟩ := not_or.mp h1
      by_cases h2 : s = ['.', '.']
      · subst h2
        cases hacceq : acc with
        | nil =>
          cases r with
          | true =>
            rw [cleanStack_dd_nil, if_pos rfl]
            exact ih hxs2 [] (stackOK_nil true)
          | false =>
            rw [cleanStack_dd_nil, if_neg (by simp)]
            exact ih hxs2 _ ⟨[], 1, by simp, by simp, by simp⟩
        | cons t acc2 =>
          subst hacceq
          by_cases h3 : t = ['.', '.']
          · subst h3
            rw [cleanStack_dd_push]
            have hgnil : g = [] := by
              cases hgeq : g with
              | nil => rfl
              | cons g0 g2 =>
                rw [hgeq] at hgk
                have hg0 : g0 = ['.', '.'] := by
                  have h5 := congrArg List.head? hgk
                  simp only [List.head?_cons, List.cons_append, Option.some.injEq] at h5
                  exact h5.symm
                exact absurd hg0 (hg g0 (hgeq ▸ List.mem_cons_self g0 g2)).2.2.1
            rw [hgnil, List.nil_append] at hgk
            refine ih hxs2 _ ⟨[], k + 1, ?_, by simp, ?_⟩
            · rw [List.nil_append, List.replicate_succ, ← hgk]
            · intro hr
              have hk0 := hrk hr
              rw [hk0] at hgk
              simp at hgk
          · rw [cleanStack_dd_pop r acc2 xs2 h3]
            cases hgeq : g with
            | nil =>
              rw [hgeq, List.nil_append] at hgk
              cases hkeq : k with
              | zero => rw [hkeq] at hgk; simp at hgk
              | succ k2 =>
                rw [hkeq, List.replicate_succ] at hgk
                have hth : t = ['.', '.'] := by
                  have := congrArg List.head? hgk
                  simpa using this
                exact absurd hth h3
            | cons g0 g2 =>
              rw [hgeq] at hgk
              have htl : acc2 = g2 ++ List.replicate k ['.', '.'] := by
                have := congrArg List.tail hgk
                simpa using this
              refine ih hxs2 acc2 ⟨g2, k, htl, ?_, hrk⟩
              exact fun u hu => hg u (hgeq ▸ List.mem_cons_of_mem g0 hu)
      · rw [cleanStack_pushStep r acc xs2 h1a h1b h2]
        refine ih hxs2 _ ⟨s :: g, k, by rw [hgk]; rfl, ?_, hrk⟩
        intro u hu
        rcases List.mem_cons.mp hu with hu1 | hu1
        · subst hu1
          exact ⟨h1a, h1b, h2, hs_slash⟩
        · exact hg u hu1

theorem cleanSegs_shape (r : Bool) (xs : List (List Char))
    (hxs : ∀ s ∈ xs, '/' ∉ s) :
    ∃ k g, cleanSegsL r xs = List.replicate k ['.', '.'] ++ g ∧
      (∀ s ∈ g, GoodSeg s) ∧ (r = true → k = 0) := by
  obtain ⟨g, k, hgk, hg, hrk⟩ := cleanStack_ok r xs hxs [] (stackOK_nil r)
  refine ⟨k, g.reverse, ?_, ?_, hrk⟩
  · unfold cleanSegsL
    rw [hgk, List.reverse_append, List.reverse_replicate]
  · intro s hs
    exact hg s (List.mem_reverse.mp hs)

theorem joinSl_ne_nil (L : List (List Char)) (hL : L ≠ [])
    (hw : ∀ s ∈ L, s ≠ []) : joinSl L ≠ [] := by
  cases L with
  | nil => exact absurd rfl hL
  | cons s L2 =>
    cases L2 with
    | nil => exact hw s (by simp)
    | cons t ts =>
      show s ++ '/' :: joinSl (t :: ts) ≠ []
      simp

theorem joinSl_ne_single (L : List (List Char)) (c : Char) (hL : L ≠ [])
    (hw : ∀ s ∈ L, s ≠ []) (hc : ∀ s ∈ L, s ≠ [c]) : joinSl L ≠ [c] := by
  cases L with
  | nil => exact absurd rfl hL
  | cons s L2 =>
    cases L2 with
    | nil => exact hc s (by simp)
    | cons t ts =>
      show s ++ '/' :: joinSl (t :: ts) ≠ [c]
      cases s with
      | nil => exact absurd rfl (hw [] (by simp))
      | cons c0 s2 =>
        simp only [List.cons_append, ne_eq, List.cons.injEq, not_and]
        intro _ h2
        exact absurd h2 (by simp)

theorem joinSl_head_no_slash (L : List (List Char)) (hL : L ≠ [])
    (hw : ∀ s ∈ L, s ≠ [] ∧ '/' ∉ s) : isAbsL (joinSl L) = false := by
  cases L with
  | nil => exact absurd rfl hL
  | cons s L2 =>
    obtain ⟨hs1, hs2⟩ := hw s (by simp)
    cases s with
    | nil => exact absurd rfl hs1
    | cons c0 s2 =>
      have hc0 : c0 ≠ '/' := fun h => hs2 (h ▸ List.mem_cons_self c0 s2)
      cases L2 with
      | nil =>
        show isAbsL (c0 :: s2) = false
        simp [isAbsL, hc0]
      | cons t ts =>
        show isAbsL ((c0 :: s2) ++ '/' :: joinSl (t :: ts)) = false
        simp [isAbsL, hc0]

theorem cleanL_of_rooted (p : List Char) (hp : p ≠ []) (hr : isAbsL p = true) :
    cleanL p = '/' :: joinSl (cleanSegsL true (splitSl p)) := by
  rw [cleanL, if_neg hp, if_pos hr, hr]

theorem cleanL_of_rel (p : List Char) (hp : p ≠ []) (hr : isAbsL p = false) :
    cleanL p =
      if cleanSegsL false (splitSl p) = [] then ['.']
      else joinSl (cleanSegsL false (splitSl p)) := by
  rw [cleanL, if_neg hp, if_neg (by rw [hr]; simp), hr]

theorem cleanSegs_push_only (r : Bool) (segs : List (List Char))
    (hg : ∀ s ∈ segs, GoodSeg s) : cleanSegsL r segs = segs := by
  unfold cleanSegsL
  rw [cleanStack_push r segs hg []]
  simp

theorem clean_join_good (segs : List (List Char)) (hg : ∀ s ∈ segs, GoodSeg s)
    (hne : segs ≠ []) : cleanL (joinSl segs) = joinSl segs := by
  have hnn : joinSl segs ≠ [] := joinSl_ne_nil segs hne (fun s hs => (hg s hs).1)
  have habs : isAbsL (joinSl segs) = false :=
    joinSl_head_no_slash segs hne (fun s hs => ⟨(hg s hs).1, (hg s hs).2.2.2⟩)
  rw [cleanL_of_rel _ hnn habs,
    splitSl_joinSl segs hne (fun s hs => (hg s hs).2.2.2),
    cleanSegs_push_only false segs hg, if_neg hne]

theorem clean_append_good (p : List Char) (hp : p ≠ []) (segs : List (List Char))
    (hg : ∀ s ∈ segs, GoodSeg s) (hne : segs ≠ []) :
    cleanL (p ++ '/' :: joinSl segs) = appendUnder (cleanL p) segs := by
  have hsegs_slash : ∀ s ∈ segs, '/' ∉ s := fun s hs => (hg s hs).2.2.2
  have hsplit : splitSl (p ++ '/' :: joinSl segs) = splitSl p ++ segs := by
    rw [splitSl_append, splitSl_joinSl segs hne hsegs_slash]
  have hne2 : p ++ '/' :: joinSl segs ≠ [] := by
    cases p with
    | nil => exact absurd rfl hp
    | cons c p2 => simp
  have habs : isAbsL (p ++ '/' :: joinSl segs) = isAbsL p := by
    cases p with
    | nil => exact absurd rfl hp
    | cons c p2 => rfl
  have hstack : ∀ r, cleanSegsL r (splitSl p ++ segs) =
      cleanSegsL r (splitSl p) ++ segs := by
    intro r
    unfold cleanSegsL
    rw [cleanStack_app, cleanStack_push r segs hg]
    rw [List.reverse_append, List.reverse_reverse]
  cases hr : isAbsL p with
  | true =>
    rw [cleanL_of_rooted _ hne2 (by rw [habs, hr]), hsplit, hstack,
      cleanL_of_rooted p hp hr]
    cases hcs : cleanSegsL true (splitSl p) with
    | nil =>
      simp only [List.nil_append]
      show '/' :: joinSl segs = appendUnder ['/'] segs
      unfold appendUnder
      rw [if_neg (by decide), if_pos rfl]
    | cons c0 cs2 =>
      obtain ⟨k, g, hshape, hgood, hk0⟩ := cleanSegs_shape true (splitSl p)
        (mem_splitSl_no_slash p)
      rw [hk0 rfl] at hshape
      simp only [List.replicate_zero, List.nil_append] at hshape
      have hgood2 : ∀ s ∈ cleanSegsL true (splitSl p), GoodSeg s := by
        rw [hshape]; exact hgood
      have hcne : cleanSegsL true (splitSl p) ≠ [] := by rw [hcs]; simp
      have hj : joinSl (cleanSegsL true (splitSl p)) ≠ [] :=
        joinSl_ne_nil _ hcne (fun s hs => (hgood2 s hs).1)
      rw [← hcs, joinSl_append _ segs hcne hne]
      unfold appendUnder
      rw [if_neg (by simp), if_neg (by simp [hj])]
      simp
  | false =>
    have hrel2 : isAbsL (p ++ '/' :: joinSl segs) = false := by rw [habs, hr]
    rw [cleanL_of_rel _ hne2 hrel2, hsplit, hstack, cleanL_of_rel p hp hr]
    have hns : cleanSegsL false (splitSl p) ++ segs ≠ [] := by simp [hne]
    rw [if_neg hns]
    obtain ⟨k, g, hshape, hgood, _⟩ := cleanSegs_shape false (splitSl p)
      (mem_splitSl_no_slash p)
    have hweak : ∀ s ∈ cleanSegsL false (splitSl p), WeakSeg s := by
      intro s hs
      rw [hshape] at hs
      rcases List.mem_append.mp hs with h1 | h1
      · rw [List.eq_of_mem_replicate h1]; exact weak_dotdot
      · exact (hgood s h1).weak
    cases hcs : cleanSegsL false (splitSl p) with
    | nil => simp [appendUnder]
    | cons c0 cs2 =>
      have hcne : cleanSegsL false (splitSl p) ≠ [] := by rw [hcs]; simp
      rw [← hcs, joinSl_append _ segs hcne hne, if_neg hcne]
      unfold appendUnder
      have hj1 : joinSl (cleanSegsL false (splitSl p)) ≠ ['.'] := by
        refine joinSl_ne_single _ '.' hcne (fun s hs => (hweak s hs).1) ?_
        intro s hs
        exact (hweak s hs).2.1
      have hj2 : joinSl (cleanSegsL false (splitSl p)) ≠ ['/'] := by
        refine joinSl_ne_single _ '/' hcne (fun s hs => (hweak s hs).1) ?_
        intro s hs hsl
        exact (hweak s hs).2.2 (hsl ▸ List.mem_cons_self '/' [])
      rw [if_neg hj1, if_neg hj2]

theorem joinL_good (a : List Char) (segs : List (List Char))
    (hg : ∀ s ∈ segs, GoodSeg s) (hne : segs ≠ []) :
    joinL a (joinSl segs) = appendUnder (cleanL a) segs := by
  by_cases ha : a = []
  · subst ha
    rw [joinL, if_pos rfl,
      if_neg (joinSl_ne_nil segs hne (fun s hs => (hg s hs).1)),
      clean_join_good segs hg hne]
    show joinSl segs = appendUnder (cleanL []) segs
    have : cleanL ([] : List Char) = ['.'] := rfl
    rw [this]
    unfold appendUnder
    rw [if_pos rfl]
  · rw [joinL, if_neg ha]
    exact clean_append_good a ha segs hg hne

theorem under_of_joinL (outDir : String) (rel : List Char)
    (hg : ∀ s ∈ splitSl rel, GoodSeg s) :
    isUnder outDir ⟨joinL outDir.data rel⟩ := by
  refine ⟨splitSl rel, splitSl_ne_nil rel, hg, ?_⟩
  show joinL outDir.data rel = appendUnder (cleanL outDir.data) (splitSl rel)
  conv =>
    lhs
    rw [← joinSl_splitSl rel]
  exact joinL_good outDir.data (splitSl rel) hg (splitSl_ne_nil rel)

/-! ## 6b. Shape of cleaned paths: idempotence, congruence and
cancellation of `Clean` over joins, exactness of `Rel` -/

theorem splitSl_cons_slash (x : List Char) :
    splitSl ('/' :: x) = [] :: splitSl x := by
  simp [splitSl]

theorem isAbs_append (a z : List Char) (ha : a ≠ []) :
    isAbsL (a ++ z) = isAbsL a := by
  cases a with
  | nil => exact absurd rfl ha
  | cons c rest => rfl

theorem cleanL_ne_nil (p : List Char) : cleanL p ≠ [] := by
  by_cases hp : p = []
  · subst hp; decide
  · cases hr : isAbsL p with
    | true => rw [cleanL_of_rooted p hp hr]; simp
    | false =>
      rw [cleanL_of_rel p hp hr]
      by_cases hc : cleanSegsL false (splitSl p) = []
      · rw [if_pos hc]; simp
      · rw [if_neg hc]
        obtain ⟨k, g, hshape, hgood, _⟩ := cleanSegs_shape false (splitSl p)
          (mem_splitSl_no_slash p)
        refine joinSl_ne_nil _ hc ?_
        intro s hs
        rw [hshape] at hs
        rcases List.mem_append.mp hs with h1 | h1
        · rw [List.eq_of_mem_replicate h1]; simp
        · exact (hgood s h1).1

theorem joinL_ne_nil (a b : List Char) (hb : b ≠ []) : joinL a b ≠ [] := by
  unfold joinL
  by_cases ha : a = []
  · rw [if_pos ha, if_neg hb]; exact cleanL_ne_nil b
  · rw [if_neg ha]; exact cleanL_ne_nil _

theorem stack_eq_rev (r : Bool) (xs : List (List Char)) :
    cleanStack r [] xs = (cleanSegsL r xs).reverse := by
  unfold cleanSegsL
  rw [List.reverse_reverse]

theorem stack_dds : ∀ k m,
    cleanStack false (List.replicate m ['.', '.']) (List.replicate k ['.', '.']) =
      List.replicate (k + m) ['.', '.'] := by
  intro k
  induction k with
  | zero => intro m; simp [cleanStack]
  | succ k2 ih =>
    intro m
    rw [show List.replicate (k2 + 1) (['.', '.'] : List Char) =
      ['.', '.'] :: List.replicate k2 ['.', '.'] from List.replicate_succ ..]
    cases m with
    | zero =>
      rw [List.replicate_zero, cleanStack_dd_nil, if_neg (by decide)]
      have h1 := ih 1
      rw [List.replicate_one] at h1
      rw [h1]
    | succ m2 =>
      rw [show List.replicate (m2 + 1) (['.', '.'] : List Char) =
        ['.', '.'] :: List.replicate m2 ['.', '.'] from List.replicate_succ ..]
      rw [cleanStack_dd_push]
      have e2 : (['.', '.'] : List Char) :: ['.', '.'] :: List.replicate m2 ['.', '.'] =
          List.replicate (m2 + 2) ['.', '.'] := by
        simp [List.replicate_succ]
      rw [e2, ih (m2 + 2)]
      congr 1
      omega

theorem stack_of_dds_good (k : Nat) (g : List (List Char))
    (hg : ∀ s ∈ g, GoodSeg s) :
    cleanStack false [] (List.replicate k ['.', '.'] ++ g) =
      g.reverse ++ List.replicate k ['.', '.'] := by
  rw [cleanStack_app]
  have h0 := stack_dds k 0
  rw [List.replicate_zero] at h0
  rw [h0, cleanStack_push false g hg]
  simp

theorem cleanSegs_dds_good (k : Nat) (g : List (List Char))
    (hg : ∀ s ∈ g, GoodSeg s) :
    cleanSegsL false (List.replicate k ['.', '.'] ++ g) =
      List.replicate k ['.', '.'] ++ g := by
  unfold cleanSegsL
  rw [stack_of_dds_good k g hg, List.reverse_append, List.reverse_reverse,
    List.reverse_replicate]

theorem cleanSegs_root_skip (g : List (List Char)) (hg : ∀ s ∈ g, GoodSeg s) :
    cleanSegsL true ([] :: g) = g := by
  unfold cleanSegsL
  rw [cleanStack_skip true [] g (Or.inl rfl), cleanStack_push true g hg []]
  simp

theorem dds_good_ne_nil {k : Nat} {g : List (List Char)} (h : k ≠ 0 ∨ g ≠ []) :
    List.replicate k ['.', '.'] ++ g ≠ [] := by
  intro hc
  rw [List.append_eq_nil] at hc
  rcases h with h | h
  · exact h ((List.replicate_eq_nil_iff (['.', '.'] : List Char)).mp hc.1)
  · exact h hc.2

theorem mem_dds_good {k : Nat} {g : List (List Char)} (hg : ∀ s ∈ g, GoodSeg s) :
    ∀ s ∈ List.replicate k ['.', '.'] ++ g, WeakSeg s := by
  intro s hs
  rcases List.mem_append.mp hs with h1 | h1
  · rw [List.eq_of_mem_replicate h1]; exact weak_dotdot
  · exact (hg s h1).weak

theorem shape_ne_nil {b : List Char} (hb : CleanShape b) : b ≠ [] := by
  rcases hb with hb | ⟨g, hg, hb⟩ | ⟨k, g, hkg, hg, hb⟩
  · rw [hb]; simp
  · rw [hb]; simp
  · rw [hb]
    exact joinSl_ne_nil _ (dds_good_ne_nil hkg) (fun s hs => (mem_dds_good hg s hs).1)

theorem clean_shape (p : List Char) : CleanShape (cleanL p) := by
  by_cases hp : p = []
  · subst hp; exact Or.inl rfl
  · cases hr : isAbsL p with
    | true =>
      obtain ⟨k, g, hshape, hgood, hk0⟩ := cleanSegs_shape true (splitSl p)
        (mem_splitSl_no_slash p)
      rw [hk0 rfl, List.replicate_zero, List.nil_append] at hshape
      exact Or.inr (Or.inl ⟨g, hgood, by rw [cleanL_of_rooted p hp hr, hshape]⟩)
    | false =>
      rw [cleanL_of_rel p hp hr]
      by_cases hc : cleanSegsL false (splitSl p) = []
      · rw [if_pos hc]; exact Or.inl rfl
      · rw [if_neg hc]
        obtain ⟨k, g, hshape, hgood, _⟩ := cleanSegs_shape false (splitSl p)
          (mem_splitSl_no_slash p)
        refine Or.inr (Or.inr ⟨k, g, ?_, hgood, by rw [hshape]⟩)
        by_contra hcon
        push_neg at hcon
        rw [hcon.1, hcon.2, List.replicate_zero, List.nil_append] at hshape
        exact hc hshape

theorem clean_of_shape {b : List Char} (hb : CleanShape b) : cleanL b = b := by
  rcases hb with hb | ⟨g, hg, hb⟩ | ⟨k, g, hkg, hg, hb⟩
  · rw [hb]; decide
  · subst hb
    by_cases hg0 : g = []
    · subst hg0; decide
    · have hne : '/' :: joinSl g ≠ [] := by simp
      have habs : isAbsL ('/' :: joinSl g) = true := rfl
      rw [cleanL_of_rooted _ hne habs, splitSl_cons_slash,
        splitSl_joinSl g hg0 (fun s hs => (hg s hs).2.2.2),
        cleanSegs_root_skip g hg]
  · subst hb
    have hLne : List.replicate k ['.', '.'] ++ g ≠ [] := dds_good_ne_nil hkg
    have hne : joinSl (List.replicate k ['.', '.'] ++ g) ≠ [] :=
      joinSl_ne_nil _ hLne (fun s hs => (mem_dds_good hg s hs).1)
    have habs : isAbsL (joinSl (List.replicate k ['.', '.'] ++ g)) = false :=
      joinSl_head_no_slash _ hLne
        (fun s hs => ⟨(mem_dds_good hg s hs).1, (mem_dds_good hg s hs).2.2⟩)
    rw [cleanL_of_rel _ hne habs,
      splitSl_joinSl _ hLne (fun s hs => (mem_dds_good hg s hs).2.2),
      cleanSegs_dds_good k g hg, if_neg hLne]

theorem clean_idem (p : List Char) : cleanL (cleanL p) = cleanL p :=
  clean_of_shape (clean_shape p)

theorem isAbs_clean (p : List Char) (hp : p ≠ []) :
    isAbsL (cleanL p) = isAbsL p := by
  cases hr : isAbsL p with
  | true => rw [cleanL_of_rooted p hp hr]; rfl
  | false =>
    rw [cleanL_of_rel p hp hr]
    by_cases hc : cleanSegsL false (splitSl p) = []
    · rw [if_pos hc]; rfl
    · rw [if_neg hc]
      obtain ⟨k, g, hshape, hgood, _⟩ := cleanSegs_shape false (splitSl p)
        (mem_splitSl_no_slash p)
      rw [hshape]
      exact joinSl_head_no_slash _ (hshape ▸ hc)
        (fun s hs => ⟨(mem_dds_good hgood s hs).1, (mem_dds_good hgood s hs).2.2⟩)

theorem stack_congr (p : List Char) (hp : p ≠ []) :
    cleanStack (isAbsL p) [] (splitSl (cleanL p)) =
      cleanStack (isAbsL p) [] (splitSl p) := by
  cases hr : isAbsL p with
  | true =>
    obtain ⟨k, g, hshape, hgood, hk0⟩ := cleanSegs_shape true (splitSl p)
      (mem_splitSl_no_slash p)
    rw [hk0 rfl, List.replicate_zero, List.nil_append] at hshape
    rw [cleanL_of_rooted p hp hr, splitSl_cons_slash, stack_eq_rev true (splitSl p),
      hshape]
    by_cases hg0 : g = []
    · subst hg0; decide
    · rw [splitSl_joinSl g hg0 (fun s hs => (hgood s hs).2.2.2),
        cleanStack_skip true [] g (Or.inl rfl), cleanStack_push true g hgood []]
      simp
  | false =>
    obtain ⟨k, g, hshape, hgood, _⟩ := cleanSegs_shape false (splitSl p)
      (mem_splitSl_no_slash p)
    rw [cleanL_of_rel p hp hr, stack_eq_rev false (splitSl p)]
    by_cases hc : cleanSegsL false (splitSl p) = []
    · rw [if_pos hc, hc]
      decide
    · rw [if_neg hc, hshape]
      have hc2 : List.replicate k ['.', '.'] ++ g ≠ [] := hshape ▸ hc
      rw [splitSl_joinSl _ hc2 (fun s hs => (mem_dds_good hgood s hs).2.2),
        stack_of_dds_good k g hgood, List.reverse_append, List.reverse_replicate]

theorem cleanL_eq_of (p q : List Char) (hp : p ≠ []) (hq : q ≠ [])
    (habs : isAbsL p = isAbsL q)
    (hsegs : cleanSegsL (isAbsL p) (splitSl p) = cleanSegsL (isAbsL p) (splitSl q)) :
    cleanL p = cleanL q := by
  cases hr : isAbsL p with
  | true =>
    rw [hr] at hsegs
    rw [cleanL_of_rooted p hp hr, cleanL_of_rooted q hq (by rw [← habs, hr]), hsegs]
  | false =>
    rw [hr] at hsegs
    rw [cleanL_of_rel p hp hr, cleanL_of_rel q hq (by rw [← habs, hr]), hsegs]

theorem clean_congr_left (x y : List Char) (hx : x ≠ []) :
    cleanL (cleanL x ++ '/' :: y) = cleanL (x ++ '/' :: y) := by
  have hcx : cleanL x ≠ [] := cleanL_ne_nil x
  have hne1 : cleanL x ++ '/' :: y ≠ [] := fun h => hcx (List.append_eq_nil.mp h).1
  have hne2 : x ++ '/' :: y ≠ [] := fun h => hx (List.append_eq_nil.mp h).1
  have habs : isAbsL (cleanL x ++ '/' :: y) = isAbsL (x ++ '/' :: y) := by
    rw [isAbs_append _ _ hcx, isAbs_append _ _ hx, isAbs_clean x hx]
  refine cleanL_eq_of _ _ hne1 hne2 habs ?_
  rw [isAbs_append _ _ hcx, isAbs_clean x hx]
  unfold cleanSegsL
  rw [splitSl_append, splitSl_append, cleanStack_app, cleanStack_app, stack_congr x hx]

theorem clean_cancel (x g y : List Char) (hx : x ≠ []) (hg : GoodSeg g) :
    cleanL (x ++ '/' :: (g ++ '/' :: ('.' :: '.' :: '/' :: y))) =
      cleanL (x ++ '/' :: y) := by
  have hne1 : x ++ '/' :: (g ++ '/' :: ('.' :: '.' :: '/' :: y)) ≠ [] :=
    fun h => hx (List.append_eq_nil.mp h).1
  have hne2 : x ++ '/' :: y ≠ [] := fun h => hx (List.append_eq_nil.mp h).1
  have habs : isAbsL (x ++ '/' :: (g ++ '/' :: ('.' :: '.' :: '/' :: y))) =
      isAbsL (x ++ '/' :: y) := by
    rw [isAbs_append _ _ hx, isAbs_append _ _ hx]
  refine cleanL_eq_of _ _ hne1 hne2 habs ?_
  rw [isAbs_append _ _ hx]
  have hsp : splitSl (x ++ '/' :: (g ++ '/' :: ('.' :: '.' :: '/' :: y))) =
      splitSl x ++ g :: ['.', '.'] :: splitSl y := by
    rw [splitSl_append,
      show ('.' :: '.' :: '/' :: y : List Char) = ['.', '.'] ++ '/' :: y from rfl,
      splitSl_append, splitSl_append, splitSl_no_slash_single g hg.2.2.2,
      splitSl_no_slash_single ['.', '.'] (by decide)]
    simp
  rw [hsp, splitSl_append]
  unfold cleanSegsL
  rw [cleanStack_app, cleanStack_app,
    cleanStack_pushStep _ _ _ hg.1 hg.2.1 hg.2.2.1, cleanStack_dd_pop _ _ _ hg.2.2.1]

theorem joinSl_cons_of_ne (s : List Char) (L : List (List Char)) (hL : L ≠ []) :
    joinSl (s :: L) = s ++ '/' :: joinSl L := by
  cases L with
  | nil => exact absurd rfl hL
  | cons t ts => rfl

theorem dropCommon_self_app (y : List (List Char)) (hy : y ≠ []) :
    ∀ x, dropCommon x (x ++ y) = ([], y) := by
  intro x
  induction x with
  | nil =>
    cases y with
    | nil => exact absurd rfl hy
    | cons t ts => rfl
  | cons a as2 ih =>
    show dropCommon (a :: as2) (a :: (as2 ++ y)) = ([], y)
    unfold dropCommon
    rw [if_pos rfl, ih]

theorem appendUnder_facts {b : List Char} (hb : CleanShape b)
    (segs : List (List Char)) (hg : ∀ s ∈ segs, GoodSeg s) (hne : segs ≠ []) :
    CleanShape (appendUnder b segs) ∧
    isAbsL (appendUnder b segs) = isAbsL b ∧
    appendUnder b segs ≠ b ∧
    dropCommon (relElems (if b = ['.'] then [] else b))
      (relElems (appendUnder b segs)) = ([], segs) := by
  have hsne : ∀ s ∈ segs, s ≠ [] := fun s hs => (hg s hs).1
  have hssl : ∀ s ∈ segs, '/' ∉ s := fun s hs => (hg s hs).2.2.2
  have hjne : joinSl segs ≠ [] := joinSl_ne_nil segs hne hsne
  have hjsl : splitSl (joinSl segs) = segs := splitSl_joinSl segs hne hssl
  rcases hb with hb | ⟨g, hgg, hb⟩ | ⟨k, g, hkg, hgg, hb⟩
  · subst hb
    have ha : appendUnder ['.'] segs = joinSl segs := by
      unfold appendUnder
      rw [if_pos rfl]
    rw [ha]
    refine ⟨Or.inr (Or.inr ⟨0, segs, Or.inr hne, hg, by simp⟩), ?_, ?_, ?_⟩
    · rw [joinSl_head_no_slash segs hne (fun s hs => ⟨hsne s hs, hssl s hs⟩)]
      rfl
    · exact joinSl_ne_single segs '.' hne hsne (fun s hs => (hg s hs).2.1)
    · rw [if_pos rfl]
      have hr1 : relElems [] = [] := rfl
      have hr2 : relElems (joinSl segs) = segs := by
        unfold relElems
        rw [if_neg hjne, if_neg, hjsl]
        exact joinSl_ne_single segs '/' hne hsne
          (fun s hs h => hssl s hs (h ▸ List.mem_cons_self '/' []))
      rw [hr1, hr2]
      cases segs with
      | nil => exact absurd rfl hne
      | cons t ts => rfl
  · subst hb
    by_cases hg0 : g = []
    · subst hg0
      have ha : appendUnder ('/' :: joinSl []) segs = '/' :: joinSl segs := by
        unfold appendUnder
        rw [if_neg (by decide), if_pos (by decide)]
      rw [ha]
      refine ⟨Or.inr (Or.inl ⟨segs, hg, rfl⟩), rfl, ?_, ?_⟩
      · intro h
        injection h with _ h2
        exact hjne h2
      · rw [if_neg (by decide)]
        have hr1 : relElems ('/' :: joinSl []) = [[]] := rfl
        have hr2 : relElems ('/' :: joinSl segs) = [] :: segs := by
          unfold relElems
          rw [if_neg (by simp), if_neg, splitSl_cons_slash, hjsl]
          intro h
          injection h with _ h2
          exact hjne h2
        rw [hr1, hr2]
        show dropCommon ([] :: []) ([] :: segs) = ([], segs)
        unfold dropCommon
        rw [if_pos rfl]
        cases segs with
        | nil => exact absurd rfl hne
        | cons t ts => rfl
    · have hjg : joinSl g ≠ [] := joinSl_ne_nil g hg0 (fun s hs => (hgg s hs).1)
      have hb1 : ('/' :: joinSl g : List Char) ≠ ['.'] := by
        intro h
        injection h with h1 _
        exact absurd h1 (by decide)
      have hb2 : ('/' :: joinSl g : List Char) ≠ ['/'] := by
        intro h
        injection h with _ h2
        exact hjg h2
      have ha : appendUnder ('/' :: joinSl g) segs =
          ('/' :: joinSl g) ++ '/' :: joinSl segs := by
        unfold appendUnder
        rw [if_neg hb1, if_neg hb2]
      rw [ha]
      have hlen : (('/' :: joinSl g) ++ '/' :: joinSl segs : List Char) ≠
          '/' :: joinSl g := by
        intro h
        have := congrArg List.length h
        simp at this
      refine ⟨?_, isAbs_append _ _ (by simp), hlen, ?_⟩
      · refine Or.inr (Or.inl ⟨g ++ segs, ?_, ?_⟩)
        · intro s hs
          rcases List.mem_append.mp hs with h | h
          exacts [hgg s h, hg s h]
        · rw [joinSl_append g segs hg0 hne]
          rfl
      · rw [if_neg hb1]
        have hr1 : relElems ('/' :: joinSl g) = [] :: g := by
          unfold relElems
          rw [if_neg (by simp), if_neg hb2, splitSl_cons_slash,
            splitSl_joinSl g hg0 (fun s hs => (hgg s hs).2.2.2)]
        have htne : (('/' :: joinSl g) ++ '/' :: joinSl segs : List Char) ≠ [] := by
          simp
        have htsl : (('/' :: joinSl g) ++ '/' :: joinSl segs : List Char) ≠ ['/'] := by
          intro h
          have := congrArg List.length h
          simp at this
        have hr2 : relElems (('/' :: joinSl g) ++ '/' :: joinSl segs) =
            ([] :: g) ++ segs := by
          unfold relElems
          rw [if_neg htne, if_neg htsl, splitSl_append, splitSl_cons_slash,
            splitSl_joinSl g hg0 (fun s hs => (hgg s hs).2.2.2), hjsl]
        rw [hr1, hr2]
        exact dropCommon_self_app segs hne ([] :: g)
  · subst hb
    have hLne : List.replicate k ['.', '.'] ++ g ≠ [] := dds_good_ne_nil hkg
    have hwk : ∀ s ∈ List.replicate k ['.', '.'] ++ g, WeakSeg s := mem_dds_good hgg
    have hbne : joinSl (List.replicate k ['.', '.'] ++ g) ≠ [] :=
      joinSl_ne_nil _ hLne (fun s hs => (hwk s hs).1)
    have hbsl : splitSl (joinSl (List.replicate k ['.', '.'] ++ g)) =
        List.replicate k ['.', '.'] ++ g :=
      splitSl_joinSl _ hLne (fun s hs => (hwk s hs).2.2)
    have hb1 : joinSl (List.replicate k ['.', '.'] ++ g) ≠ ['.'] :=
      joinSl_ne_single _ '.' hLne (fun s hs => (hwk s hs).1)
        (fun s hs => (hwk s hs).2.1)
    have hb2 : joinSl (List.replicate k ['.', '.'] ++ g) ≠ ['/'] :=
      joinSl_ne_single _ '/' hLne (fun s hs => (hwk s hs).1)
        (fun s hs h => (hwk s hs).2.2 (h ▸ List.mem_cons_self '/' []))
    have ha : appendUnder (joinSl (List.replicate k ['.', '.'] ++ g)) segs =
        joinSl (List.replicate k ['.', '.'] ++ g) ++ '/' :: joinSl segs := by
      unfold appendUnder
      rw [if_neg hb1, if_neg hb2]
    rw [ha]
    have hlen : (joinSl (List.replicate k ['.', '.'] ++ g) ++ '/' :: joinSl segs :
        List Char) ≠ joinSl (List.replicate k ['.', '.'] ++ g) := by
      intro h
      have := congrArg List.length h
      simp at this
    refine ⟨?_, isAbs_append _ _ hbne, hlen, ?_⟩
    · refine Or.inr (Or.inr ⟨k, g ++ segs, Or.inr (by simp [hne]), ?_, ?_⟩)
      · intro s hs
        rcases List.mem_append.mp hs with h | h
        exacts [hgg s h, hg s h]
      · rw [← List.append_assoc, joinSl_append _ segs hLne hne]
    · rw [if_neg hb1]
      have hr1 : relElems (joinSl (List.replicate k ['.', '.'] ++ g)) =
          List.replicate k ['.', '.'] ++ g := by
        unfold relElems
        rw [if_neg hbne, if_neg hb2, hbsl]
      have htne : (joinSl (List.replicate k ['.', '.'] ++ g) ++ '/' :: joinSl segs :
          List Char) ≠ [] := fun h => hbne (List.append_eq_nil.mp h).1
      have htsl : (joinSl (List.replicate k ['.', '.'] ++ g) ++ '/' :: joinSl segs :
          List Char) ≠ ['/'] := by
        intro h
        have hl := congrArg List.length h
        simp only [List.length_append, List.length_cons, List.length_singleton,
          List.length_nil] at hl
        exact hbne (List.length_eq_zero.mp (by omega))
      have hr2 : relElems (joinSl (List.replicate k ['.', '.'] ++ g) ++
          '/' :: joinSl segs) = (List.replicate k ['.', '.'] ++ g) ++ segs := by
        unfold relElems
        rw [if_neg htne, if_neg htsl, splitSl_append, hbsl, hjsl]
      rw [hr1, hr2]
      exact dropCommon_self_app segs hne (List.replicate k ['.', '.'] ++ g)

theorem rel_append {b : List Char} (hb : CleanShape b) (segs : List (List Char))
    (hg : ∀ s ∈ segs, GoodSeg s) (hne : segs ≠ []) :
    relL b (appendUnder b segs) = some (joinSl segs) := by
  obtain ⟨hshape, habs, hneb, hdrop⟩ := appendUnder_facts hb segs hg hne
  have hcb : cleanL b = b := clean_of_shape hb
  have hct : cleanL (appendUnder b segs) = appendUnder b segs := clean_of_shape hshape
  unfold relL relBase
  rw [hcb, hct, if_neg hneb]
  have habs2 : isAbsL (if b = ['.'] then [] else b) = isAbsL (appendUnder b segs) := by
    by_cases hbd : b = ['.']
    · rw [if_pos hbd, habs, hbd]
      rfl
    · rw [if_neg hbd, habs]
  rw [if_neg (by rw [habs2]; simp), hdrop]

theorem mem_joinSl {c : Char} : ∀ L : List (List Char), c ∈ joinSl L →
    c = '/' ∨ ∃ s ∈ L, c ∈ s := by
  intro L
  induction L with
  | nil => intro h; simp [joinSl] at h
  | cons s L2 ih =>
    intro h
    cases L2 with
    | nil => exact Or.inr ⟨s, by simp, h⟩
    | cons t ts =>
      rw [joinSl_cons_of_ne s (t :: ts) (by simp)] at h
      rcases List.mem_append.mp h with h1 | h1
      · exact Or.inr ⟨s, by simp, h1⟩
      · rcases List.mem_cons.mp h1 with h2 | h2
        · exact Or.inl h2
        · rcases ih h2 with h3 | ⟨u, hu, hc⟩
          · exact Or.inl h3
          · exact Or.inr ⟨u, List.mem_cons_of_mem s hu, hc⟩

theorem map_bs_eq_self {l : List Char} (h : '\\' ∉ l) :
    l.map (fun c => if c = '\\' then '/' else c) = l := by
  induction l with
  | nil => rfl
  | cons c cs ih =>
    have hc : c ≠ '\\' := fun hcc => h (hcc ▸ List.mem_cons_self c cs)
    have hcs : '\\' ∉ cs := fun hm => h (List.mem_cons_of_mem c hm)
    simp [hc, ih hcs]

theorem no_leading_updots (segs : List (List Char)) (hg : ∀ s ∈ segs, GoodSeg s)
    (hne : segs ≠ []) :
    (['.', '.', '/'].isPrefixOf (joinSl segs)) = false := by
  by_contra hcon
  rw [Bool.not_eq_false, List.isPrefixOf_iff_prefix] at hcon
  obtain ⟨t, ht⟩ := hcon
  cases segs with
  | nil => exact hne rfl
  | cons s rest =>
    obtain ⟨hs1, hs2, hs3, hs4⟩ := hg s (List.mem_cons_self s rest)
    cases rest with
    | nil =>
      have hs : s = '.' :: '.' :: '/' :: t := ht.symm
      exact hs4 (by rw [hs]; simp)
    | cons u us =>
      rw [joinSl_cons_of_ne s (u :: us) (by simp)] at ht
      cases s with
      | nil => exact hs1 rfl
      | cons c1 s1 =>
        cases s1 with
        | nil =>
          simp only [List.cons_append, List.nil_append] at ht
          injection ht with e1 ht2
          injection ht2 with e2 _
          exact absurd e2 (by decide)
        | cons c2 s2 =>
          cases s2 with
          | nil =>
            simp only [List.cons_append, List.nil_append] at ht
            injection ht with e1 ht2
            injection ht2 with e2 ht3
            exact hs3 (by rw [← e1, ← e2])
          | cons c3 s3 =>
            simp only [List.cons_append] at ht
            injection ht with e1 ht2
            injection ht2 with e2 ht3
            injection ht3 with e3 _
            exact hs4 (by rw [← e3]; simp)

theorem clean_drop_dot (x : List Char) (hx : x ≠ []) :
    cleanL (x ++ '/' :: ['.']) = cleanL x := by
  refine cleanL_eq_of _ _ (fun h => hx (List.append_eq_nil.mp h).1) hx
    (isAbs_append _ _ hx) ?_
  rw [isAbs_append _ _ hx]
  unfold cleanSegsL
  rw [splitSl_append, splitSl_no_slash_single ['.'] (by decide), cleanStack_app,
    cleanStack_skip _ _ [] (Or.inr rfl)]
  rfl

theorem baseAnchor_eq (out : List Char) (d : Nat) :
    (buildAnchorsL out d).1 = joinL out ".anchor".data := rfl

theorem subAnchor_zero (out : List Char) :
    (buildAnchorsL out 0).2 = joinL out ".anchor".data := rfl

theorem subAnchor_succ (out : List Char) (d : Nat) :
    (buildAnchorsL out (d + 1)).2 = joinL (buildAnchorsL out d).2 "level".data := rfl

theorem subAnchor_ne_nil (out : List Char) (d : Nat) :
    (buildAnchorsL out d).2 ≠ [] := by
  cases d with
  | zero => rw [subAnchor_zero]; exact joinL_ne_nil _ _ (by decide)
  | succ d2 => rw [subAnchor_succ]; exact joinL_ne_nil _ _ (by decide)

theorem anchor_shape (out : List Char) (d : Nat) :
    CleanShape (buildAnchorsL out d).1 := by
  rw [baseAnchor_eq,
    show (".anchor".data : List Char) = joinSl [".anchor".data] from rfl,
    joinL_good out [".anchor".data] (by decide) (by simp)]
  exact (appendUnder_facts (clean_shape out) [".anchor".data] (by decide)
    (by simp)).1

theorem mustBeUnder_appendUnder (cwd : List Char) {b : List Char}
    (hb : CleanShape b) (segs : List (List Char))
    (hg : ∀ s ∈ segs, GoodSeg s) (hne : segs ≠ [])
    (hbs : ∀ s ∈ segs, '\\' ∉ s) :
    mustBeUnderL cwd b (appendUnder b segs) = true := by
  obtain ⟨hshape, habs, hneb, _⟩ := appendUnder_facts hb segs hg hne
  have hbne : b ≠ [] := shape_ne_nil hb
  have htne : appendUnder b segs ≠ [] := shape_ne_nil hshape
  have key : ∃ B2, CleanShape B2 ∧
      absL cwd b = B2 ∧ absL cwd (appendUnder b segs) = appendUnder B2 segs := by
    unfold absL
    cases hab : isAbsL b with
    | true =>
      rw [habs, hab, if_pos rfl, if_pos rfl]
      exact ⟨b, hb, clean_of_shape hb, clean_of_shape hshape⟩
    | false =>
      rw [habs, hab, if_neg (by simp), if_neg (by simp)]
      by_cases hcwd : cwd = []
      · subst hcwd
        refine ⟨b, hb, ?_, ?_⟩
        · rw [joinL, if_pos rfl, if_neg hbne, clean_of_shape hb]
        · rw [joinL, if_pos rfl, if_neg htne, clean_of_shape hshape]
      · by_cases hbd : b = ['.']
        · subst hbd
          refine ⟨cleanL cwd, clean_shape cwd, ?_, ?_⟩
          · rw [joinL, if_neg hcwd, clean_drop_dot cwd hcwd]
          · have ha : appendUnder ['.'] segs = joinSl segs := by
              unfold appendUnder
              rw [if_pos rfl]
            rw [ha, joinL, if_neg hcwd, clean_append_good cwd hcwd segs hg hne]
        · have hbslash : b ≠ ['/'] := fun h => absurd (h ▸ hab) (by decide)
          have ha : appendUnder b segs = b ++ '/' :: joinSl segs := by
            unfold appendUnder
            rw [if_neg hbd, if_neg hbslash]
          refine ⟨cleanL (cwd ++ '/' :: b), clean_shape _, ?_, ?_⟩
          · rw [joinL, if_neg hcwd]
          · rw [ha, joinL, if_neg hcwd,
              show cwd ++ '/' :: (b ++ '/' :: joinSl segs) =
                (cwd ++ '/' :: b) ++ '/' :: joinSl segs from by simp,
              clean_append_good _ (fun h => hcwd (List.append_eq_nil.mp h).1)
                segs hg hne]
  obtain ⟨B2, hB2, hab1, hab2⟩ := key
  unfold mustBeUnderL
  dsimp only
  rw [hab1, hab2, rel_append hB2 segs hg hne]
  dsimp only
  have hnobs : '\\' ∉ joinSl segs := by
    intro hm
    rcases mem_joinSl _ hm with h | ⟨s, hs, hcs⟩
    · exact absurd h (by decide)
    · exact hbs s hs hcs
  rw [map_bs_eq_self hnobs]
  have hd1 : joinSl segs ≠ ['.'] :=
    joinSl_ne_single segs '.' hne (fun s hs => (hg s hs).1)
      (fun s hs => (hg s hs).2.1)
  have hd2 : joinSl segs ≠ [] := joinSl_ne_nil segs hne (fun s hs => (hg s hs).1)
  rw [if_neg (by simp [hd1, hd2]), if_neg (by simp [no_leading_updots segs hg hne]),
    splitSl_joinSl segs hne (fun s hs => (hg s hs).2.2.2)]
  have hany : (segs.any fun seg => seg = ['.', '.']) = false := by
    rw [List.any_eq_false]
    intro s hs
    simp [(hg s hs).2.2.1]
  rw [hany]
  rfl

theorem climb (out : List Char) (d : Nat) (segs : List (List Char))
    (hg : ∀ s ∈ segs, GoodSeg s) (hne : segs ≠ []) :
    cleanL ((buildAnchorsL out d).2 ++
        '/' :: joinSl (List.replicate d ['.', '.'] ++ segs)) =
      appendUnder (buildAnchorsL out d).1 segs := by
  induction d with
  | zero =>
    rw [subAnchor_zero, List.replicate_zero, List.nil_append,
      clean_append_good _ (joinL_ne_nil _ _ (by decide)) segs hg hne,
      show joinL out ".anchor".data = (buildAnchorsL out 0).1 from rfl,
      clean_of_shape (anchor_shape out 0)]
  | succ d2 ih =>
    have hMne : List.replicate d2 ['.', '.'] ++ segs ≠ [] :=
      fun h => hne (List.append_eq_nil.mp h).2
    have hcc := clean_cancel ((buildAnchorsL out d2).2) "level".data
      (joinSl (List.replicate d2 ['.', '.'] ++ segs)) (subAnchor_ne_nil out d2)
      (by decide)
    have harg : ((buildAnchorsL out d2).2 ++ '/' :: "level".data) ++
        '/' :: joinSl (List.replicate (d2 + 1) ['.', '.'] ++ segs) =
        (buildAnchorsL out d2).2 ++ '/' :: ("level".data ++
          '/' :: ('.' :: '.' :: '/' ::
            joinSl (List.replicate d2 ['.', '.'] ++ segs))) := by
      rw [show List.replicate (d2 + 1) (['.', '.'] : List Char) ++ segs =
        ['.', '.'] :: (List.replicate d2 ['.', '.'] ++ segs) from by
          rw [List.replicate_succ]; rfl,
        joinSl_cons_of_ne _ _ hMne]
      simp
    rw [subAnchor_succ,
      show joinL (buildAnchorsL out d2).2 "level".data =
        cleanL ((buildAnchorsL out d2).2 ++ '/' :: "level".data) from by
          rw [joinL, if_neg (subAnchor_ne_nil out d2)],
      clean_congr_left _ _
        (fun h => subAnchor_ne_nil out d2 (List.append_eq_nil.mp h).1),
      harg, hcc, ih]
    rfl

theorem finalRel_good (segs : List (List Char)) (hg : ∀ s ∈ segs, GoodSeg s)
    (hne : segs ≠ []) :
    finalRel (joinSl segs) = sanitizeSegmentsL (joinSl segs) := by
  have hmap : sanitizeSegmentsL (joinSl segs) = joinSl (segs.map sanSeg) := by
    unfold sanitizeSegmentsL
    rw [splitSl_joinSl segs hne (fun s hs => (hg s hs).2.2.2)]
  have hmne : segs.map sanSeg ≠ [] := by simp [hne]
  have h1 : sanitizeSegmentsL (joinSl segs) ≠ [] := by
    rw [hmap]
    refine joinSl_ne_nil _ hmne ?_
    intro t ht
    obtain ⟨s, _, hst⟩ := List.mem_map.mp ht
    rw [← hst]
    exact sanSeg_ne_nil s
  have h2 : sanitizeSegmentsL (joinSl segs) ≠ ['.'] := by
    rw [hmap]
    refine joinSl_ne_single _ '.' hmne ?_ ?_
    · intro t ht
      obtain ⟨s, _, hst⟩ := List.mem_map.mp ht
      rw [← hst]
      exact sanSeg_ne_nil s
    · intro t ht
      obtain ⟨s, _, hst⟩ := List.mem_map.mp ht
      rw [← hst]
      exact sanSeg_ne_dot s
  unfold finalRel
  rw [if_neg (by simp [h1, h2])]

theorem resolve_exact (cwd out normKeep : List Char) (d : Nat)
    (segs : List (List Char))
    (hsplit : splitSl normKeep = List.replicate d ['.', '.'] ++ segs)
    (hg : ∀ s ∈ segs, GoodSeg s) (hne : segs ≠ [])
    (hbs : ∀ s ∈ segs, '\\' ∉ s) :
    resolveUnderAnchorL cwd out (buildAnchorsL out d).1 (buildAnchorsL out d).2
        normKeep =
      some (sanitizeSegmentsL (joinSl segs),
        joinL out (sanitizeSegmentsL (joinSl segs))) := by
  have hnk : normKeep = joinSl (List.replicate d ['.', '.'] ++ segs) := by
    conv_lhs => rw [← joinSl_splitSl normKeep, hsplit]
  have hcl : cleanL (joinL (buildAnchorsL out d).2 normKeep) =
      appendUnder (buildAnchorsL out d).1 segs := by
    rw [joinL, if_neg (subAnchor_ne_nil out d), clean_idem, hnk]
    exact climb out d segs hg hne
  unfold resolveUnderAnchorL
  rw [hcl, mustBeUnder_appendUnder cwd (anchor_shape out d) segs hg hne hbs,
    rel_append (anchor_shape out d) segs hg hne, if_neg (by decide)]
  dsimp only
  rw [finalRel_good segs hg hne]

/-! ## 7. Claim theorems -/

/-- Claim C1: for every input, whenever `resolveUnderAnchor` succeeds
(with the anchors built by `buildAnchors` at any depth), the relative
path it returns has no segment equal to empty, `.` or `..`, and the
absolute path it returns is the output directory joined with that
relative path and is a descendant of the output directory. -/
theorem resolveUnderAnchor_contained (cwd outDir : String) (depth : Nat)
    (normKeep relPath absPath : String)
    (h : resolveUnderAnchor cwd outDir (buildAnchors outDir depth).1
        (buildAnchors outDir depth).2 normKeep = some (relPath, absPath)) :
    (∀ s ∈ splitSl relPath.data, s ≠ [] ∧ s ≠ ['.'] ∧ s ≠ ['.', '.']) ∧
    absPath.data = joinL outDir.data relPath.data ∧
    isUnder outDir absPath := by
  unfold resolveUnderAnchor at h
  obtain ⟨⟨r0, a0⟩, hres, heq⟩ := Option.map_eq_some'.mp h
  have hrel : relPath = ⟨r0⟩ := (congrArg Prod.fst heq).symm
  have habs : absPath = ⟨a0⟩ := (congrArg Prod.snd heq).symm
  subst hrel
  subst habs
  unfold resolveUnderAnchorL at hres
  split at hres
  · exact absurd hres (by simp)
  · split at hres
    · exact absurd hres (by simp)
    · next rfb hrfb =>
      simp only [Option.some.injEq, Prod.mk.injEq] at hres
      obtain ⟨hr0, ha0⟩ := hres
      have hgood : ∀ s ∈ splitSl r0, GoodSeg s := by
        rw [← hr0]
        unfold finalRel
        split
        · intro s hs
          have : splitSl "unnamed".data = ["unnamed".data] := by decide
          rw [this] at hs
          rcases List.mem_singleton.mp hs with h2
          subst h2
          decide
        · intro s hs
          rw [sanitize_split] at hs
          obtain ⟨u, hu, hus⟩ := List.mem_map.mp hs
          subst hus
          exact sanSeg_good u (mem_splitSl_no_slash rfb u hu)
      rw [hr0] at ha0
      refine ⟨fun s hs => ⟨(hgood s hs).1, (hgood s hs).2.1, (hgood s hs).2.2.1⟩, ?_, ?_⟩
      · show a0 = joinL outDir.data r0
        exact ha0.symm
      · have := under_of_joinL outDir r0 hgood
        rwa [ha0] at this

/-- Witness for C1 at a concrete adversarial input: depth 3 anchors,
source path climbing two levels. -/
theorem resolveUnderAnchor_contained_witness :
    resolveUnderAnchor "/w" "out" (buildAnchors "out" 3).1 (buildAnchors "out" 3).2
        "../../etc/passwd" = some ("level/etc/passwd", "out/level/etc/passwd") ∧
    ((∀ s ∈ splitSl "level/etc/passwd".data, s ≠ [] ∧ s ≠ ['.'] ∧ s ≠ ['.', '.']) ∧
      "out/level/etc/passwd".data = joinL "out".data "level/etc/passwd".data ∧
      isUnder "out" "out/level/etc/passwd") :=
  ⟨by decide,
    resolveUnderAnchor_contained "/w" "out" 3 "../../etc/passwd" "level/etc/passwd"
      "out/level/etc/passwd" (by decide)⟩

/-- Claim C4: `sanitizeSegments` is idempotent. -/
theorem sanitizeSegments_idem (p : String) :
    sanitizeSegments (sanitizeSegments p) = sanitizeSegments p := by
  show String.mk (sanitizeSegmentsL (sanitizeSegmentsL p.data)) =
    String.mk (sanitizeSegmentsL p.data)
  refine congrArg String.mk ?_
  show joinSl ((splitSl (sanitizeSegmentsL p.data)).map sanSeg) = sanitizeSegmentsL p.data
  rw [sanitize_split, List.map_map]
  have hss : (sanSeg ∘ sanSeg) = sanSeg := funext fun s => sanSeg_idem s
  rw [hss]
  rfl

/-- Claim C2 (failing input): on the document with sources `["../a"]`
and an empty `sourcesContent` array, every entry's aligned content is
absent (treated as empty by the data model), yet `computeMaxLeadingUps`
returns 1 and not the claimed 0: the guard `i < len(sm.SourcesContent)`
prevents the empty-content skip for entries beyond the array. -/
theorem computeMaxLeadingUps_counts_missing :
    computeMaxLeadingUps ⟨3, "", ["../a"], [], ""⟩ = 1 ∧
    ∀ i, trimSpaceL (contentAt ⟨3, "", ["../a"], [], ""⟩ i).data = [] := by
  constructor
  · decide
  · intro i
    show trimSpaceL (List.getD [] i "").data = []
    cases i <;> rfl

/-- Claim C5: when the inline regex matched on the script text and its
base64 payload decodes, `processScript` processes the inline map and
returns: it performs no referenced-map fetch and no conventional
`.map` fetch. -/
theorem inline_short_circuit (env : LocatorEnv) (convURL payload doc : String)
    (h1 : env.inlineMatch = some payload) (h2 : env.b64Decode payload = some doc) :
    processScriptMapFetches env convURL = [] := by
  simp only [processScriptMapFetches, h1, h2]

/-- Witness for C5. -/
theorem inline_short_circuit_witness :
    processScriptMapFetches envInlineExample "https://h/app.js.map" = [] :=
  inline_short_circuit envInlineExample "https://h/app.js.map"
    "eyJ2ZXJzaW9uIjozfQ" "{}" rfl rfl

/-- Counterexample to C8 as stated: the crawl-mode extraction unit
(`processMapBytes`) does not fail on a parseable document with zero
sources; it succeeds with zero files written. -/
theorem processMapBytes_zero_sources_ok :
    processMapBytesModel (some ⟨3, "app.js", [], [], ""⟩) "out" "h" "/w" =
      .ok (0, []) := rfl

/-- Claim C8 amended: an unparseable document is fatal for both
extraction units and writes nothing; a zero-sources document is fatal
for the local extraction; the crawl unit accepts it, writing no file. -/
theorem malformed_fatal (outDir cwd outBase hostPath : String) (sm : sourceMap)
    (hz : sm.sources = []) :
    runExtractModel none outDir cwd = .error () ∧
    runExtractModel (some sm) outDir cwd = .error () ∧
    processMapBytesModel none outBase hostPath cwd = .error () ∧
    processMapBytesModel (some sm) outBase hostPath cwd = .ok (0, []) := by
  refine ⟨rfl, ?_, rfl, ?_⟩
  · simp [runExtractModel, hz]
  · simp [processMapBytesModel, hz, processMapLoop]

/-- Witness for the amended C8. -/
theorem malformed_fatal_witness :
    runExtractModel none "out" "/w" = .error () ∧
    runExtractModel (some ⟨3, "f", [], ["x"], "r"⟩) "out" "/w" = .error () ∧
    processMapBytesModel none "out" "h" "/w" = .error () ∧
    processMapBytesModel (some ⟨3, "f", [], ["x"], "r"⟩) "out" "h" "/w" = .ok (0, []) :=
  malformed_fatal "out" "/w" "out" "h" ⟨3, "f", [], ["x"], "r"⟩ rfl

/-- Counterexample to C9 as stated: two scripts of the same host whose
paths differ only in the file name (hence different script paths) are
mapped to the same output directory by `hostPathForURL`. -/
theorem hostPath_same_dir_collision :
    hostPathForURL ⟨"https", "r", "/", ""⟩ ⟨"http", "h", "/js/a.js", ""⟩ =
      hostPathForURL ⟨"https", "r", "/", ""⟩ ⟨"http", "h", "/js/b.js", ""⟩ ∧
    ("/js/a.js" : String) ≠ "/js/b.js" := by
  constructor
  · rfl
  · decide

theorem rev_head_mem (l : List Char) (h : l ≠ []) :
    ∃ c, l.reverse.head? = some c ∧ c ∈ l := by
  cases hrev : l.reverse with
  | nil => exact absurd (by simpa using congrArg List.reverse hrev) h
  | cons c cr =>
    refine ⟨c, rfl, ?_⟩
    have : c ∈ l.reverse := hrev ▸ List.mem_cons_self c cr
    exact List.mem_reverse.mp this

theorem joinSl_rev_isAbs (L : List (List Char)) (hL : L ≠ [])
    (hw : ∀ s ∈ L, s ≠ [] ∧ '/' ∉ s) : isAbsL (joinSl L).reverse = false := by
  induction L with
  | nil => exact absurd rfl hL
  | cons s L2 ih =>
    cases L2 with
    | nil =>
      obtain ⟨h1, h2⟩ := hw s (by simp)
      show isAbsL s.reverse = false
      obtain ⟨c, hc, hcm⟩ := rev_head_mem s h1
      have : c ≠ '/' := fun hcc => h2 (hcc ▸ hcm)
      unfold isAbsL
      rw [hc]
      simp [this]
    | cons t ts =>
      show isAbsL ((s ++ '/' :: joinSl (t :: ts)).reverse) = false
      have hJ : joinSl (t :: ts) ≠ [] :=
        joinSl_ne_nil _ (by simp)
          (fun u hu => (hw u (List.mem_cons_of_mem s hu)).1)
      have ihr := ih (by simp) (fun u hu => hw u (List.mem_cons_of_mem s hu))
      rw [List.reverse_append, List.reverse_cons]
      cases hc : (joinSl (t :: ts)).reverse with
      | nil => exact absurd (by simpa using congrArg List.reverse hc) hJ
      | cons c cr =>
        rw [hc] at ihr
        unfold isAbsL at ihr ⊢
        simpa using ihr

theorem clean_single {h : List Char} (hh : GoodSeg h) : cleanL h = h := by
  have := clean_join_good [h] (by intro s hs; rw [List.mem_singleton.mp hs]; exact hh)
    (by simp)
  simpa [joinSl] using this

theorem trimSet_slash_inner (x : List Char) (hx : isAbsL x = false)
    (hrev : isAbsL x.reverse = false) : trimSet x ['/'] = x := by
  unfold trimSet trimLeftSet trimRightSet
  have hleft : x.dropWhile (fun c => List.contains ['/'] c) = x := by
    cases x with
    | nil => rfl
    | cons c rest =>
      have : c ≠ '/' := by
        intro hcc
        rw [hcc] at hx
        simp [isAbsL] at hx
      rw [List.dropWhile_cons, if_neg (by simp [this])]
  rw [hleft]
  have hright : x.reverse.dropWhile (fun c => List.contains ['/'] c) = x.reverse := by
    cases hxr : x.reverse with
    | nil => rfl
    | cons c rest =>
      have : c ≠ '/' := by
        intro hcc
        rw [hxr, hcc] at hrev
        simp [isAbsL] at hrev
      rw [List.dropWhile_cons, if_neg (by simp [this])]
  rw [hright, List.reverse_reverse]

theorem dir_abs_shape (p : List Char) (habs : isAbsL p = true) :
    ∃ g, (∀ s ∈ g, GoodSeg s) ∧ dirL p = '/' :: joinSl g := by
  cases p with
  | nil => simp [isAbsL] at habs
  | cons c rest =>
    have hc : c = '/' := by
      by_contra hcc
      simp [isAbsL, hcc] at habs
    subst hc
    have hup : upToLastSlash ('/' :: rest) ≠ [] ∧
        isAbsL (upToLastSlash ('/' :: rest)) = true := by
      show (let tail := upToLastSlash rest;
        if tail = [] then (if '/' = '/' then ['/'] else [])
        else '/' :: tail) ≠ [] ∧ _
      by_cases ht : upToLastSlash rest = []
      · simp [upToLastSlash, ht, isAbsL]
      · simp [upToLastSlash, ht, isAbsL]
    obtain ⟨k, g, hshape, hgood, hk0⟩ :=
      cleanSegs_shape true (splitSl (upToLastSlash ('/' :: rest)))
        (mem_splitSl_no_slash _)
    rw [hk0 rfl] at hshape
    simp only [List.replicate_zero, List.nil_append] at hshape
    refine ⟨g, hgood, ?_⟩
    unfold dirL
    rw [if_neg hup.1, cleanL_of_rooted _ hup.1 hup.2, hshape]

theorem hostPath_form (r u : GoURL) (hh : GoodSeg (hostnameL u.host.data))
    (hp : isAbsL u.path.data = true) :
    ∃ g, (∀ s ∈ g, GoodSeg s) ∧ dirL u.path.data = '/' :: joinSl g ∧
      ((g = [] ∧ (hostPathForURL r u).data = hostnameL u.host.data) ∨
       (g ≠ [] ∧ (hostPathForURL r u).data =
          hostnameL u.host.data ++ '/' :: joinSl g)) := by
  obtain ⟨g, hg, hd⟩ := dir_abs_shape u.path.data hp
  refine ⟨g, hg, hd, ?_⟩
  cases hge : g with
  | nil =>
    left
    refine ⟨rfl, ?_⟩
    rw [hge] at hd
    have hdp : hostDirPart u.path.data = [] := by
      unfold hostDirPart
      rw [hd]
      simp [joinSl]
    unfold hostPathForURL
    rw [hdp, if_pos rfl]
  | cons g0 g2 =>
    right
    rw [← hge]
    have hgne : g ≠ [] := by rw [hge]; simp
    refine ⟨hgne, ?_⟩
    have hjne : joinSl g ≠ [] := joinSl_ne_nil g hgne (fun s hs => (hg s hs).1)
    have htrim : trimSet ('/' :: joinSl g) ['/'] = joinSl g := by
      have hstep : trimSet ('/' :: joinSl g) ['/'] = trimSet (joinSl g) ['/'] := by
        unfold trimSet trimLeftSet
        rw [List.dropWhile_cons, if_pos (by simp)]
      rw [hstep]
      exact trimSet_slash_inner (joinSl g)
        (joinSl_head_no_slash g hgne (fun s hs => ⟨(hg s hs).1, (hg s hs).2.2.2⟩))
        (joinSl_rev_isAbs g hgne (fun s hs => ⟨(hg s hs).1, (hg s hs).2.2.2⟩))
    have hdp : hostDirPart u.path.data = joinSl g := by
      unfold hostDirPart
      rw [hd, if_neg (by simp [hjne]), htrim]
    unfold hostPathForURL
    rw [hdp, if_neg hjne]
    show joinL (hostnameL u.host.data) (joinSl g) = _
    rw [joinL_good _ g hg hgne, clean_single hh]
    unfold appendUnder
    have hnslash : hostnameL u.host.data ≠ ['/'] := by
      intro hsl
      exact hh.2.2.2 (hsl ▸ List.mem_cons_self '/' [])
    rw [if_neg hh.2.1, if_neg hnslash]

/-- Claim C9 amended: output directories are keyed by the script
hostname and the directory of its path; for script URLs with a real
hostname and a rooted path, different hostnames or different path
directories give distinct output directories. -/
theorem hostPathForURL_injective (r1 r2 u1 u2 : GoURL)
    (hh1 : GoodSeg (hostnameL u1.host.data)) (hh2 : GoodSeg (hostnameL u2.host.data))
    (hp1 : isAbsL u1.path.data = true) (hp2 : isAbsL u2.path.data = true)
    (hdiff : hostnameL u1.host.data ≠ hostnameL u2.host.data ∨
      dirL u1.path.data ≠ dirL u2.path.data) :
    hostPathForURL r1 u1 ≠ hostPathForURL r2 u2 := by
  obtain ⟨g1, hg1, hd1, hf1⟩ := hostPath_form r1 u1 hh1 hp1
  obtain ⟨g2, hg2, hd2, hf2⟩ := hostPath_form r2 u2 hh2 hp2
  intro heq
  have heqd := congrArg String.data heq
  have hsplit1 : splitSl (hostnameL u1.host.data) = [hostnameL u1.host.data] :=
    splitSl_no_slash_single _ hh1.2.2.2
  have hsplit2 : splitSl (hostnameL u2.host.data) = [hostnameL u2.host.data] :=
    splitSl_no_slash_single _ hh2.2.2.2
  rcases hf1 with ⟨hg1nil, hv1⟩ | ⟨hg1ne, hv1⟩
  · rcases hf2 with ⟨hg2nil, hv2⟩ | ⟨hg2ne, hv2⟩
    · rw [hv1, hv2] at heqd
      rcases hdiff with hd | hd
      · exact hd heqd
      · rw [hg1nil] at hd1
        rw [hg2nil] at hd2
        exact hd (hd1.trans hd2.symm)
    · rw [hv1, hv2] at heqd
      have hs := congrArg splitSl heqd
      rw [hsplit1, splitSl_append, hsplit2,
        splitSl_joinSl g2 hg2ne (fun s hs2 => (hg2 s hs2).2.2.2)] at hs
      have hlen := congrArg List.length hs
      simp only [List.length_singleton, List.length_append] at hlen
      have : g2.length = 0 := by omega
      exact hg2ne (List.length_eq_zero.mp this)
  · rcases hf2 with ⟨hg2nil, hv2⟩ | ⟨hg2ne, hv2⟩
    · rw [hv1, hv2] at heqd
      have hs := congrArg splitSl heqd
      rw [hsplit2, splitSl_append, hsplit1,
        splitSl_joinSl g1 hg1ne (fun s hs2 => (hg1 s hs2).2.2.2)] at hs
      have hlen := congrArg List.length hs
      simp only [List.length_singleton, List.length_append] at hlen
      have : g1.length = 0 := by omega
      exact hg1ne (List.length_eq_zero.mp this)
    · rw [hv1, hv2] at heqd
      have hs := congrArg splitSl heqd
      rw [splitSl_append, splitSl_append, hsplit1, hsplit2,
        splitSl_joinSl g1 hg1ne (fun s hs2 => (hg1 s hs2).2.2.2),
        splitSl_joinSl g2 hg2ne (fun s hs2 => (hg2 s hs2).2.2.2)] at hs
      simp only [List.singleton_append, List.cons.injEq] at hs
      rcases hdiff with hd | hd
      · exact hd hs.1
      · rw [hd1, hd2, hs.2] at hd
        exact hd rfl

/-- Witness for the amended C9: same host, different script
directories. -/
theorem hostPathForURL_injective_witness :
    hostPathForURL ⟨"https", "r", "/", ""⟩ ⟨"http", "h", "/a/x.js", ""⟩ ≠
      hostPathForURL ⟨"https", "r", "/", ""⟩ ⟨"http", "h", "/b/x.js", ""⟩ :=
  hostPathForURL_injective _ _ _ _ (by decide) (by decide) (by decide) (by decide)
    (by decide)

theorem trim_allspace {l : List Char} (h : ∀ c ∈ l, goIsSpace c = true) :
    trimSpaceL l = [] := by
  unfold trimSpaceL
  have : l.dropWhile goIsSpace = [] := List.dropWhile_eq_nil_iff.mpr h
  rw [this]
  rfl

theorem extractLoop_congr (sm sm2 : sourceMap) (cwd out B S : List Char)
    (hroot : sm.sourceRoot = sm2.sourceRoot)
    (hcond : ∀ j, trimSpaceL (contentAt sm j).data = [] ↔
      trimSpaceL (contentAt sm2 j).data = []) :
    ∀ srcs idx, extractLoop sm cwd out B S idx srcs =
      extractLoop sm2 cwd out B S idx srcs := by
  intro srcs
  induction srcs with
  | nil => intro idx; rfl
  | cons s rest ih =>
    intro idx
    simp only [extractLoop]
    rw [ih (idx + 1), hroot]
    by_cases hc : trimSpaceL (contentAt sm idx).data = []
    · rw [if_pos hc, if_pos ((hcond idx).mp hc)]
    · rw [if_neg hc, if_neg (fun h => hc ((hcond idx).mpr h))]

theorem maxUps_congr (sm sm2 : sourceMap)
    (hroot : sm.sourceRoot = sm2.sourceRoot)
    (hlen : sm.sourcesContent.length = sm2.sourcesContent.length)
    (hcond : ∀ j, trimSpaceL (contentAt sm j).data = [] ↔
      trimSpaceL (contentAt sm2 j).data = []) :
    ∀ srcs idx, computeMaxLeadingUpsGo sm idx srcs =
      computeMaxLeadingUpsGo sm2 idx srcs := by
  intro srcs
  induction srcs with
  | nil => intro idx; rfl
  | cons s rest ih =>
    intro idx
    simp only [computeMaxLeadingUpsGo]
    rw [ih (idx + 1), hroot]
    have hcd : (decide (idx < sm.sourcesContent.length) &&
        decide (trimSpaceL (contentAt sm idx).data = [])) =
        (decide (idx < sm2.sourcesContent.length) &&
        decide (trimSpaceL (contentAt sm2 idx).data = [])) := by
      rw [hlen, decide_eq_decide.mpr (hcond idx)]
    rw [hcd]

theorem setContent_cond (sm : sourceMap) (i : Nat)
    (hws : ∀ c ∈ (contentAt sm i).data, goIsSpace c = true) :
    ∀ j, trimSpaceL (contentAt sm j).data = [] ↔
      trimSpaceL (contentAt (setContent sm i) j).data = [] := by
  intro j
  by_cases hj : j = i
  · subst hj
    constructor
    · intro _
      by_cases hlt : j < sm.sourcesContent.length
      · have : contentAt (setContent sm j) j = "" := by
          unfold contentAt setContent
          simp [List.getD, List.getElem?_set_self, hlt]
        rw [this]
        rfl
      · have hset : sm.sourcesContent.set j "" = sm.sourcesContent :=
          List.set_eq_of_length_le (Nat.le_of_not_lt hlt)
        show trimSpaceL (contentAt (setContent sm j) j).data = []
        unfold contentAt setContent
        simp only [hset]
        exact trim_allspace hws
    · intro _
      exact trim_allspace hws
  · have : contentAt (setContent sm i) j = contentAt sm j := by
      unfold contentAt setContent
      simp [List.getD, List.getElem?_set_ne (fun h => hj h.symm)]
    rw [this]

theorem extractLoop_event (sm : sourceMap) (cwd out B S : List Char) :
    ∀ (srcs : List String) (idx n : Nat), n < srcs.length →
      trimSpaceL (contentAt sm (idx + n)).data = [] →
      (extractLoop sm cwd out B S idx srcs).2.2[n]? =
        some (.skippedNoContent (srcs.getD n "")) := by
  intro srcs
  induction srcs with
  | nil =>
    intro idx n hn
    simp at hn
  | cons s rest ih =>
    intro idx n hn hc
    cases n with
    | zero =>
      rw [Nat.add_zero] at hc
      simp only [extractLoop]
      rw [if_pos hc]
      simp [List.getD]
    | succ n2 =>
      have hc2 : trimSpaceL (contentAt sm (idx + 1 + n2)).data = [] := by
        have : idx + 1 + n2 = idx + (n2 + 1) := by omega
        rw [this]
        exact hc
      have hn2 : n2 < rest.length := by
        simpa using Nat.lt_of_succ_lt_succ hn
      have hg : ((s :: rest).getD (n2 + 1) "") = rest.getD n2 "" := by
        simp [List.getD]
      rw [hg]
      simp only [extractLoop]
      by_cases hc0 : trimSpaceL (contentAt sm idx).data = []
      · rw [if_pos hc0]
        simpa using ih (idx + 1) n2 hn2 hc2
      · rw [if_neg hc0]
        cases hres : resolveUnderAnchorL cwd out B S
            (normalizeKeepDotsL (joinMaybeL sm.sourceRoot.data s.data)) with
        | none => simpa using ih (idx + 1) n2 hn2 hc2
        | some ra => simpa using ih (idx + 1) n2 hn2 hc2

/-- Claim C10: an entry whose aligned content is only whitespace is
treated exactly like one with empty content: the whole extraction
behaves as if that entry's content were the empty string, the depth
computation is unchanged by blanking it, and the entry itself produces
a skipped (no content) event, never a write. -/
theorem whitespace_content_skipped (sm : sourceMap) (i : Nat) (outDir cwd : String)
    (hws : ∀ c ∈ (contentAt sm i).data, goIsSpace c = true) :
    runExtractModel (some sm) outDir cwd =
      runExtractModel (some (setContent sm i)) outDir cwd ∧
    computeMaxLeadingUps sm = computeMaxLeadingUps (setContent sm i) ∧
    (∀ w k evs, i < sm.sources.length →
      runExtractModel (some sm) outDir cwd = .ok (w, k, evs) →
      evs[i]? = some (.skippedNoContent (sm.sources.getD i ""))) := by
  have hcond := setContent_cond sm i hws
  have hlen : sm.sourcesContent.length = (setContent sm i).sourcesContent.length := by
    unfold setContent
    simp
  have hups : computeMaxLeadingUps sm = computeMaxLeadingUps (setContent sm i) :=
    maxUps_congr sm (setContent sm i) rfl hlen hcond sm.sources 0
  refine ⟨?_, hups, ?_⟩
  · unfold runExtractModel
    dsimp only
    have hsrc : (setContent sm i).sources = sm.sources := rfl
    rw [hsrc, ← hups]
    by_cases hz : sm.sources = []
    · rw [if_pos hz, if_pos hz]
    · rw [if_neg hz, if_neg hz]
      rw [extractLoop_congr sm (setContent sm i) cwd.data outDir.data _ _ rfl hcond
        sm.sources 0]
  · intro w k evs hi hrun
    unfold runExtractModel at hrun
    dsimp only at hrun
    rw [if_neg (by intro hz; rw [hz] at hi; simp at hi)] at hrun
    have hevs : evs = (extractLoop sm cwd.data outDir.data
        (buildAnchorsL outDir.data (computeMaxLeadingUps sm)).1
        (buildAnchorsL outDir.data (computeMaxLeadingUps sm)).2 0 sm.sources).2.2 := by
      have h2 := hrun.symm
      simp only [Except.ok.injEq] at h2
      rw [← h2]
    rw [hevs]
    have h0 : trimSpaceL (contentAt sm (0 + i)).data = [] := by
      rw [Nat.zero_add]
      exact trim_allspace hws
    exact extractLoop_event sm cwd.data outDir.data _ _ sm.sources 0 i hi h0

/-- Witness for C10: a document whose second entry's content is a tab
and spaces. -/
theorem whitespace_content_skipped_witness :
    (∀ c ∈ (contentAt ⟨3, "f", ["a.ts", "../b.ts"], ["x", " \t "], ""⟩ 1).data,
      goIsSpace c = true) ∧
    runExtractModel (some ⟨3, "f", ["a.ts", "../b.ts"], ["x", " \t "], ""⟩) "out" "/w" =
      runExtractModel
        (some (setContent ⟨3, "f", ["a.ts", "../b.ts"], ["x", " \t "], ""⟩ 1)) "out" "/w" ∧
    computeMaxLeadingUps ⟨3, "f", ["a.ts", "../b.ts"], ["x", " \t "], ""⟩ =
      computeMaxLeadingUps (setContent ⟨3, "f", ["a.ts", "../b.ts"], ["x", " \t "], ""⟩ 1) :=
  ⟨by decide,
    (whitespace_content_skipped ⟨3, "f", ["a.ts", "../b.ts"], ["x", " \t "], ""⟩ 1
      "out" "/w" (by decide)).1,
    (whitespace_content_skipped ⟨3, "f", ["a.ts", "../b.ts"], ["x", " \t "], ""⟩ 1
      "out" "/w" (by decide)).2.1⟩

/-- One write step of the extraction loop. -/
theorem extractLoop_cons_write (sm : sourceMap) (cwd out B S : List Char)
    (i : Nat) (s : String) (rest : List String) (ra : List Char × List Char)
    (hc : trimSpaceL (contentAt sm i).data ≠ [])
    (hres : resolveUnderAnchorL cwd out B S
      (normalizeKeepDotsL (joinMaybeL sm.sourceRoot.data s.data)) = some ra) :
    extractLoop sm cwd out B S i (s :: rest) =
      ((extractLoop sm cwd out B S (i + 1) rest).1 + 1,
       (extractLoop sm cwd out B S (i + 1) rest).2.1,
       .written ⟨ra.1⟩ ⟨ra.2⟩ :: (extractLoop sm cwd out B S (i + 1) rest).2.2) := by
  simp only [extractLoop]
  rw [if_neg hc, hres]

/-- One skip step of the extraction loop. -/
theorem extractLoop_cons_skip (sm : sourceMap) (cwd out B S : List Char)
    (i : Nat) (s : String) (rest : List String)
    (hc : trimSpaceL (contentAt sm i).data = []) :
    extractLoop sm cwd out B S i (s :: rest) =
      ((extractLoop sm cwd out B S (i + 1) rest).1,
       (extractLoop sm cwd out B S (i + 1) rest).2.1 + 1,
       .skippedNoContent s :: (extractLoop sm cwd out B S (i + 1) rest).2.2) := by
  simp only [extractLoop]
  rw [if_pos hc]

/-- Claim C3: extracting the document with sources
`["../../src/app.ts", "../../src/utils/math.ts", "../node_modules/x/y.js"]`
(third content empty, first two non-empty) computes anchor depth 2 and,
for every output directory and working directory, writes exactly
`Join(out, "src/app.ts")` and `Join(out, "src/utils/math.ts")`, skips the
third entry, and reports 2 written and 1 skipped. -/
theorem end_to_end_scenario (outDir cwd : String) :
    computeMaxLeadingUps doc3 = 2 ∧
    runExtractModel (some doc3) outDir cwd =
      .ok (2, 1,
        [.written "src/app.ts" ⟨joinL outDir.data "src/app.ts".data⟩,
         .written "src/utils/math.ts" ⟨joinL outDir.data "src/utils/math.ts".data⟩,
         .skippedNoContent "../node_modules/x/y.js"]) := by
  have hdepth : computeMaxLeadingUps doc3 = 2 := by decide
  refine ⟨hdepth, ?_⟩
  have h0 : resolveUnderAnchorL cwd.data outDir.data
      (buildAnchorsL outDir.data 2).1 (buildAnchorsL outDir.data 2).2
      (normalizeKeepDotsL (joinMaybeL doc3.sourceRoot.data
        ("../../src/app.ts" : String).data)) =
      some ("src/app.ts".data, joinL outDir.data "src/app.ts".data) := by
    rw [show normalizeKeepDotsL (joinMaybeL doc3.sourceRoot.data
      ("../../src/app.ts" : String).data) = "../../src/app.ts".data from by decide]
    have hr := resolve_exact cwd.data outDir.data "../../src/app.ts".data 2
      ["src".data, "app.ts".data] (by decide) (by decide) (by decide) (by decide)
    rw [show sanitizeSegmentsL (joinSl ["src".data, "app.ts".data]) =
      "src/app.ts".data from by decide] at hr
    exact hr
  have h1 : resolveUnderAnchorL cwd.data outDir.data
      (buildAnchorsL outDir.data 2).1 (buildAnchorsL outDir.data 2).2
      (normalizeKeepDotsL (joinMaybeL doc3.sourceRoot.data
        ("../../src/utils/math.ts" : String).data)) =
      some ("src/utils/math.ts".data, joinL outDir.data "src/utils/math.ts".data) := by
    rw [show normalizeKeepDotsL (joinMaybeL doc3.sourceRoot.data
      ("../../src/utils/math.ts" : String).data) =
      "../../src/utils/math.ts".data from by decide]
    have hr := resolve_exact cwd.data outDir.data "../../src/utils/math.ts".data 2
      ["src".data, "utils".data, "math.ts".data] (by decide) (by decide) (by decide)
      (by decide)
    rw [show sanitizeSegmentsL (joinSl ["src".data, "utils".data, "math.ts".data]) =
      "src/utils/math.ts".data from by decide] at hr
    exact hr
  unfold runExtractModel
  dsimp only
  rw [if_neg (by decide), hdepth,
    show doc3.sources = [("../../src/app.ts" : String), "../../src/utils/math.ts",
      "../node_modules/x/y.js"] from rfl,
    extractLoop_cons_write doc3 cwd.data outDir.data _ _ 0 _ _ _ (by decide) h0,
    extractLoop_cons_write doc3 cwd.data outDir.data _ _ 1 _ _ _ (by decide) h1,
    extractLoop_cons_skip doc3 cwd.data outDir.data _ _ 2 _ _ (by decide),
    show extractLoop doc3 cwd.data outDir.data (buildAnchorsL outDir.data 2).1
      (buildAnchorsL outDir.data 2).2 3 [] = (0, 0, []) from rfl]

/-- Claim C6: on the return-pattern text with object literal ids
`20:"abcd", 21:"efgh"`, prefix `static/js/` and the same variable on
both occurrences, the chunk deriver yields exactly two candidate URLs,
one ending in `20.abcd.chunk.js` and one in `21.efgh.chunk.js`; with a
mismatched variable name it yields zero candidates. -/
theorem chunk_derivation_deterministic :
    (findChunkURLsReturnPattern chunk6Text script6 root6).length = 2 ∧
    (∃ u ∈ findChunkURLsReturnPattern chunk6Text script6 root6,
      ("20.abcd.chunk.js".data.isSuffixOf u.path.data) = true) ∧
    (∃ u ∈ findChunkURLsReturnPattern chunk6Text script6 root6,
      ("21.efgh.chunk.js".data.isSuffixOf u.path.data) = true) ∧
    findChunkURLsReturnPattern chunk6Mismatch script6 root6 = [] := by
  refine ⟨by decide, ⟨⟨"https", "app.example.com", "/static/js/20.abcd.chunk.js",
    ""⟩, by decide, by decide⟩, ⟨⟨"https", "app.example.com",
    "/static/js/21.efgh.chunk.js", ""⟩, by decide, by decide⟩, by decide⟩

/-- Claim C7 as stated is false: with page root `http://h/app/index.html`
and script `http://h/assets/main.js`, the synthesized relative name
`static/js/20.abcd.chunk.js` is resolved against the page root
(yielding `/app/static/js/20.abcd.chunk.js`), not against the script's
directory (which would yield `/assets/static/js/20.abcd.chunk.js`). -/
theorem chunk_resolution_not_script_dir :
    findChunkURLsReturnPattern
        "return \"static/js/\"+e+\".\"+\x7b20:\"abcd\"\x7d[e]+\".chunk.js\";"
        ⟨"http", "h", "/assets/main.js", ""⟩ ⟨"http", "h", "/app/index.html", ""⟩ =
      [⟨"http", "h", "/app/static/js/20.abcd.chunk.js", ""⟩] ∧
    (⟨"http", "h", "/app/static/js/20.abcd.chunk.js", ""⟩ : GoURL).path ≠
      "/assets/static/js/20.abcd.chunk.js" := by
  exact ⟨by decide, by decide⟩

/-- A parse without a scheme is never opaque: the opaque branch of
`url.Parse` requires a nonempty scheme. -/
theorem parse_scheme_empty_opq (raw : List Char) {u : GoURL}
    (h : parseURLL raw = some u) (hs : u.scheme = "") : u.opq = "" := by
  unfold parseURLL at h
  rcases hc0 : cutAt raw '#' with ⟨r0, rr⟩
  rw [hc0] at h
  dsimp only at h
  cases hg : getSchemeGo r0 r0 0 with
  | none =>
    rw [hg] at h
    simp at h
  | some p =>
    rcases p with ⟨sch, rest1⟩
    rw [hg] at h
    dsimp only at h
    rcases hc1 : cutAt rest1 '?' with ⟨r2, rq⟩
    rw [hc1] at h
    dsimp only at h
    by_cases h1 : (['/', '/'].isPrefixOf r2) = true
    · rw [if_pos h1] at h
      have h2 := Option.some.inj h
      rw [← h2]
    · rw [if_neg h1] at h
      by_cases h2 : (sch.map toLowerAscii ≠ [] && r2.head? ≠ some '/') = true
      · rw [if_pos h2] at h
        have h3 := Option.some.inj h
        rw [← h3] at hs
        have h4 : sch.map toLowerAscii = [] := congrArg String.data hs
        rw [Bool.and_eq_true] at h2
        simp [h4] at h2
      · rw [if_neg h2] at h
        have h3 := Option.some.inj h
        rw [← h3]

/-- Claim C7 (amended): each synthesized name
`<prefix><id>.<hash>.chunk.js` is parsed and resolved against the page
root URL, never against the script's directory, except in one residual
case.  Given a page root with scheme and host: a name parsing with a
nonempty host wins as-is (its scheme defaulted to the root's scheme
when empty), a name parsing with neither scheme nor host is resolved
relative to the page root, and only a name parsing with a scheme but an
empty host falls back to building the URL from the directory of the
current script. -/
theorem chunk_name_resolution (name : List Char) (script root u : GoURL)
    (hparse : parseURLL name = some u)
    (hrs : root.scheme ≠ "") (hrh : root.host ≠ "") :
    (u.host ≠ "" →
      resolveChunkName name script root = some (resolveReferenceL root u)) ∧
    (u.host = "" → u.scheme = "" →
      resolveChunkName name script root =
        some ⟨root.scheme, root.host,
          ⟨resolvePathGo root.path.data u.path.data⟩, ""⟩) ∧
    (u.host = "" → u.scheme ≠ "" →
      resolveChunkName name script root =
        some (scriptDirFallback name script)) := by
  refine ⟨?_, ?_, ?_⟩
  · intro huh
    by_cases hsch : u.scheme = ""
    · have hres : resolveReferenceL root u =
          ⟨root.scheme, u.host, ⟨resolvePathGo u.path.data []⟩, u.opq⟩ := by
        unfold resolveReferenceL
        rw [if_pos (by simp [huh]), if_pos hsch]
      unfold resolveChunkName
      rw [hparse]
      dsimp only
      rw [hres, if_neg (by simp [hrs, huh])]
    · have hres : resolveReferenceL root u =
          ⟨u.scheme, u.host, ⟨resolvePathGo u.path.data []⟩, u.opq⟩ := by
        unfold resolveReferenceL
        rw [if_pos (by simp [huh]), if_neg hsch]
      unfold resolveChunkName
      rw [hparse]
      dsimp only
      rw [hres, if_neg (by simp [hsch, huh])]
  · intro huh hus
    have huo : u.opq = "" := parse_scheme_empty_opq name hparse hus
    have hres : resolveReferenceL root u =
        ⟨root.scheme, root.host, ⟨resolvePathGo root.path.data u.path.data⟩, ""⟩ := by
      unfold resolveReferenceL
      rw [hus, huh, huo]
      simp
    unfold resolveChunkName
    rw [hparse]
    dsimp only
    rw [hres, if_neg (by simp [hrs, hrh])]
  · intro huh hus
    have hres : resolveReferenceL root u =
        ⟨u.scheme, "", ⟨resolvePathGo u.path.data []⟩, u.opq⟩ := by
      unfold resolveReferenceL
      rw [huh, if_pos (by simp [hus]), if_neg hus]
    unfold resolveChunkName
    rw [hparse]
    dsimp only
    rw [hres, if_pos (by simp)]
    rfl

theorem chunk_name_resolution_witness :
    resolveChunkName "static/js/20.abcd.chunk.js".data
        ⟨"http", "h", "/assets/main.js", ""⟩ ⟨"http", "h", "/app/index.html", ""⟩ =
      some ⟨"http", "h", "/app/static/js/20.abcd.chunk.js", ""⟩ ∧
    resolveChunkName "js:/x/20.abcd.chunk.js".data
        ⟨"http", "h", "/assets/main.js", ""⟩ ⟨"http", "h", "/app/index.html", ""⟩ =
      some ⟨"http", "h", "/assets/js:/x/20.abcd.chunk.js", ""⟩ := by
  constructor
  · have h := (chunk_name_resolution "static/js/20.abcd.chunk.js".data
      ⟨"http", "h", "/assets/main.js", ""⟩ ⟨"http", "h", "/app/index.html", ""⟩
      ⟨"", "", "static/js/20.abcd.chunk.js", ""⟩ (by decide) (by decide)
      (by decide)).2.1 rfl rfl
    rw [h]
    decide
  · have h := (chunk_name_resolution "js:/x/20.abcd.chunk.js".data
      ⟨"http", "h", "/assets/main.js", ""⟩ ⟨"http", "h", "/app/index.html", ""⟩
      ⟨"js", "", "/x/20.abcd.chunk.js", ""⟩ (by decide) (by decide)
      (by decide)).2.2 rfl (by decide)
    rw [h]
    decide

end Tsmap
